import Mathlib

/-!
Shallow embedding of the procedural map-generation and visibility core of the
Caves-Of-Crisis repository, translated from

  * src/core/map/tile_types.py and src/core/map/tileset.py (tile catalog),
  * src/core/map/map.py           (cave generation, item scattering,
                                   soft-occlusion visibility, accessors),
  * src/core/entities/dev_char.py (reveal_map).

Modelling conventions.

Randomness: the Python `random` module and the NumPy global RandomState are
modelled as oracle streams of draws.  `Streams` carries four streams (Python
integer draws, Python float draws, NumPy float draws, NumPy integer draws)
and `Cnt` threads one counter per stream.  `random.seed(seed)` makes the two
Python streams a fixed (unknown) function of the seed, so a fixed seed fixes
them; the NumPy streams are never seeded by `generate_cave`, they stand for
whatever state the process-global NumPy generator happens to have.
`randint a b` is modelled as `a +` (draw mod size of the range): every value
of the range is reachable and no claim depends on the distribution.
`np.random.shuffle` is modelled as a selection shuffle driven by the NumPy
integer stream (repeatedly extract the element at a drawn index), a faithful
model of its contract of permuting the list in place.  Draws made by the
excluded loading-screen UI layer (random.choice of a flavour message inside
update_progress) are not counted; they only shift oracle indices.

Floats: Python floats are modelled as exact rationals.  The constants the
code compares against (0, 0.01, 0.1, 0.4, 1.0) are exact in both readings,
and no settled claim depends on rounding.

Object identity: Python tiles are mutable heap objects; a `TileInst` carries
an allocation identity `tid`.  The four catalog prototypes in tileset.py are
the shared objects with ids 0-3; `copy.deepcopy` of a cell is modelled by
`freshCopyAt`, which gives the cell a brand-new id (the next allocation
counter) and keeps its fields.  Python `==` on `Tile` (no `__eq__`) is
identity, i.e. `tid` equality.

NumPy indexing: an index `i` with `-n <= i < 0` silently wraps to `n + i`;
an index outside `[-n, n)` raises IndexError.  Reads and writes through
`npWrap` reproduce the wrap; the raising case is modelled as a no-op read of
the wall prototype / skipped write, and is commented at each use (no settled
claim exercises it except where the claim is precisely about this path).

scipy collaborators: `scipy.signal.convolve2d` with the fixed symmetric
3x3 kernel and `scipy.ndimage.label` (4-connected components, labelled in
row-major order of first encounter) are embedded by their documented
contracts, as is the external Item Factory (see `generate_item_by_rarity`).
-/

/-- Tile kinds of the catalog in src/core/map/tileset.py. -/
inductive TileKind where
  | wall | floor | mossyWall | water
deriving DecidableEq, Repr

/-- The `blocked` attribute each prototype is constructed with. -/
def TileKind.blocked : TileKind → Bool
  | .wall => true
  | .floor => false
  | .mossyWall => true
  | .water => false

/-- The `transparency` attribute each prototype is constructed with
(tileset.py: CAVE_WALL 0.1, CAVE_FLOOR 1.0, MOSSY_WALL 0.0, WATER 0.4). -/
def TileKind.transparency : TileKind → ℚ
  | .wall => mkRat 1 10
  | .floor => 1
  | .mossyWall => 0
  | .water => mkRat 2 5

/-- A tile object on the heap: its kind-derived fields, its allocation
identity `tid` (Python object identity), and the `items` it stacks.
Items are identified by the catalog code of the item placed (their own
object identity plays no role in any claim). -/
structure TileInst where
  kind : TileKind
  tid : Nat
  items : List Nat
deriving DecidableEq, Repr

def TileInst.blocked (t : TileInst) : Bool := t.kind.blocked

/-- Prototype CAVE_WALL from tileset.py; allocation identity 0. -/
def CAVE_WALL : TileInst := ⟨.wall, 0, []⟩

/-- Prototype CAVE_FLOOR; allocation identity 1. -/
def CAVE_FLOOR : TileInst := ⟨.floor, 1, []⟩

/-- Prototype MOSSY_WALL; allocation identity 2. -/
def MOSSY_WALL : TileInst := ⟨.mossyWall, 2, []⟩

/-- Prototype WATER; allocation identity 3. -/
def WATER : TileInst := ⟨.water, 3, []⟩

/-- Oracle streams for the two random sources (see header). -/
structure Streams where
  pyInt : Nat → Nat
  pyFlt : Nat → ℚ
  npFlt : Nat → ℚ
  npInt : Nat → Nat

/-- Stream counters: Python ints, Python floats, NumPy floats, NumPy ints. -/
structure Cnt where
  pi : Nat
  pf : Nat
  nf : Nat
  ni : Nat
deriving Repr

def Cnt.zero : Cnt := ⟨0, 0, 0, 0⟩

/-- `random.randint(a, b)` : inclusive range; raises ValueError when `a > b`
(modelled as `none`).  The draw is `a` plus the oracle value reduced mod the
range size. -/
def pyRandint (st : Streams) (c : Cnt) (a b : Int) : Option (Int × Cnt) :=
  if a ≤ b then
    some (a + (st.pyInt c.pi % (b - a + 1).toNat : Nat), { c with pi := c.pi + 1 })
  else none

/-- `random.random()` draw. -/
def pyRandom (st : Streams) (c : Cnt) : ℚ × Cnt :=
  (st.pyFlt c.pf, { c with pf := c.pf + 1 })

/-- `np.random.randint(n)` (one uniform integer below `n`); call sites
guarantee `n > 0`. -/
def npRandintLt (st : Streams) (c : Cnt) (n : Nat) : Nat × Cnt :=
  (st.npInt c.ni % n, { c with ni := c.ni + 1 })

/-- NumPy index semantics on one axis of length `n`: negative indices in
`[-n, 0)` wrap to the end, anything else raises IndexError (`none`). -/
def npWrap (n : Nat) (i : Int) : Option Nat :=
  if 0 ≤ i ∧ i < (n : Int) then some i.toNat
  else if -(n : Int) ≤ i ∧ i < 0 then some (i + n).toNat
  else none

/-! ## Bresenham lines

`Map.bresenham_line` (map.py lines 581-599) and
`Map.bresenham_line_procgen` (lines 216-245) are textually the same
algorithm; both are embedded through `bresAux`.  The generator yields the
current point, stops after yielding the end point, and otherwise advances
x and/or y by the classic error rule.  The fuel `|dx| + |dy| + 1` is shown
sufficient in the theorems below. -/

def bresAux (x1 y1 dx dy sx sy : Int) : Nat → Int → Int → Int → List (Int × Int)
  | 0, _, _, _ => []
  | fuel + 1, x, y, err =>
    (x, y) ::
      (if x = x1 ∧ y = y1 then []
       else
         let e2 := 2 * err
         let err1 := if dy ≤ e2 then err + dy else err
         let xn := if dy ≤ e2 then x + sx else x
         let err2 := if e2 ≤ dx then err1 + dx else err1
         let yn := if e2 ≤ dx then y + sy else y
         bresAux x1 y1 dx dy sx sy fuel xn yn err2)

def bdx (x0 x1 : Int) : Int := ((x1 - x0).natAbs : Int)
def bdy (y0 y1 : Int) : Int := -((y1 - y0).natAbs : Int)
def bsx (x0 x1 : Int) : Int := if x0 < x1 then 1 else -1
def bsy (y0 y1 : Int) : Int := if y0 < y1 then 1 else -1

/-- `Map.bresenham_line(x0, y0, x1, y1)` as the list of yielded points. -/
def bresenham_line (x0 y0 x1 y1 : Int) : List (Int × Int) :=
  bresAux x1 y1 (bdx x0 x1) (bdy y0 y1) (bsx x0 x1) (bsy y0 y1)
    ((x1 - x0).natAbs + (y1 - y0).natAbs + 1) x0 y0 (bdx x0 x1 + bdy y0 y1)

/-- `Map.bresenham_line_procgen(start, end)`: the duplicate generator used by
region connection.  It unpacks `x1, y1 = start`, so whatever pair it is
handed (the call site hands it `np.argwhere` pairs, which are (row, col))
is walked with the first component as x. -/
def bresenham_line_procgen (s e : Int × Int) : List (Int × Int) :=
  bresenham_line s.1 s.2 e.1 e.2

/-! ## Visibility planes and the soft-occlusion update -/

/-- One boolean plane (`visible_map` / `explored_map`), indexed plane y x. -/
def Plane : Type := Nat → Nat → Bool

/-- Write True at numpy index (iy, ix) of an h x w plane.  A fully
out-of-range index raises IndexError in a real run (aborting the update
part-way); it is modelled as a skipped write, which marks no more cells than
any prefix of the real run does. -/
def planeSet (h w : Nat) (p : Plane) (iy ix : Int) : Plane :=
  match npWrap h iy, npWrap w ix with
  | some r, some cc => fun y x => if y = r ∧ x = cc then true else p y x
  | _, _ => p

/-- Read the tile object at numpy index (iy, ix) of map_data.  A fully
out-of-range index raises IndexError in a real run; the wall prototype is
returned as a placeholder (no settled claim reaches this case). -/
def npTileAt (tiles : Nat → Nat → TileInst) (h w : Nat) (iy ix : Int) : TileInst :=
  match npWrap h iy, npWrap w ix with
  | some r, some cc => tiles r cc
  | _, _ => CAVE_WALL

/-- The visibility state of a `Map`: the two planes and `is_revealed`. -/
structure VisMap where
  vis : Plane
  exp : Plane
  revealed : Bool

/-- The inner ray walk of `update_visibility_bresenham_soft` (map.py lines
561-579): walk the yielded points, mark each visible and explored, stop at
the target, otherwise attenuate by the tile transparency and stop when the
tile is near-opaque or the accumulated factor is below 1/100. -/
def traceRay (tiles : Nat → Nat → TileInst) (w h : Nat) (tx ty : Int) :
    List (Int × Int) → ℚ → Plane × Plane → Plane × Plane
  | [], _, ve => ve
  | (lx, ly) :: rest, acc, (v, e) =>
    if acc ≤ 0 then (v, e)
    else
      let v2 := planeSet h w v ly lx
      let e2 := planeSet h w e ly lx
      if lx = tx ∧ ly = ty then (v2, e2)
      else
        let tr := (npTileAt tiles h w ly lx).kind.transparency
        let acc2 := acc * tr
        if tr ≤ mkRat 1 10 ∨ acc2 < mkRat 1 100 then (v2, e2)
        else traceRay tiles w h tx ty rest acc2 (v2, e2)

/-- Offsets `-r .. r` in loop order (`range(-radius, radius + 1)`). -/
def intRange (r : Nat) : List Int :=
  (List.range (2 * r + 1)).map (fun i : Nat => (i : Int) - (r : Int))

/-- `Map.update_visibility_bresenham_soft(player)` (map.py lines 534-579),
for a viewer at (px, py) with view radius `radius` over tile grid `tiles`
of size w x h. -/
def update_visibility_bresenham_soft (tiles : Nat → Nat → TileInst) (w h : Nat)
    (s : VisMap) (px py : Int) (radius : Nat) : VisMap :=
  if s.revealed then { s with vis := fun _ _ => true }
  else
    let v0 : Plane := fun _ _ => false
    let ve0 : Plane × Plane :=
      if 0 ≤ px ∧ px < (w : Int) ∧ 0 ≤ py ∧ py < (h : Int) then
        (planeSet h w v0 py px, planeSet h w s.exp py px)
      else (v0, s.exp)
    let targets : List (Int × Int) :=
      (intRange radius).flatMap (fun dy => (intRange radius).map (fun dx => (dy, dx)))
    let ve1 := targets.foldl (fun ve d =>
      let tx := px + d.2
      let ty := py + d.1
      if d.2 * d.2 + d.1 * d.1 ≤ (radius : Int) * (radius : Int) ∧
          0 ≤ tx ∧ tx < (w : Int) ∧ 0 ≤ ty ∧ ty < (h : Int) then
        traceRay tiles w h tx ty (bresenham_line px py tx ty) 1 ve
      else ve) ve0
    ⟨ve1.1, ve1.2, s.revealed⟩

/-- Row-major cell enumeration (row, col), as the nested `for y ... for x`
loops visit cells. -/
def cellsRC (h w : Nat) : List (Nat × Nat) :=
  (List.range h).flatMap (fun y => (List.range w).map (fun x => (y, x)))

/-- `DevChar.reveal_map` (dev_char.py lines 127-134): set every cell of both
planes True, then set `is_revealed`. -/
def reveal_map (w h : Nat) (s : VisMap) : VisMap :=
  let ve := (cellsRC h w).foldl
    (fun (ve : Plane × Plane) rc =>
      (planeSet h w ve.1 (rc.1 : Int) (rc.2 : Int),
       planeSet h w ve.2 (rc.1 : Int) (rc.2 : Int)))
    (s.vis, s.exp)
  ⟨ve.1, ve.2, true⟩

/-- A sequence of visibility updates (viewer x, viewer y, radius). -/
def apply_updates (tiles : Nat → Nat → TileInst) (w h : Nat)
    (s : VisMap) (us : List (Int × Int × Nat)) : VisMap :=
  us.foldl (fun s2 u => update_visibility_bresenham_soft tiles w h s2 u.1 u.2.1 u.2.2) s

/-! ## Cave generation (Map.generate_cave and helpers) -/

/-- Configuration of `generate_cave`.  The `seed` argument is not a field:
seeding only fixes the two Python oracle streams (see header), which are
passed alongside. -/
structure CaveConfig where
  width : Nat
  height : Nat
  fill_percent : ℚ
  smoothing_iterations : Nat
  connect_regions : Bool
  add_moss : Bool
  add_water : Bool

/-- The tile grid during generation, indexed grid y x like `map_data[y, x]`. -/
def TGrid : Type := Nat → Nat → TileInst

/-- Overwrite one cell of the grid. -/
def setCell (g : TGrid) (y x : Nat) (t : TileInst) : TGrid :=
  fun yy xx => if yy = y ∧ xx = x then t else g yy xx

/-- `np.clip(q, 0, 1)`. -/
def qclip (q : ℚ) : ℚ := if q < 0 then 0 else if 1 < q then 1 else q

/-- Step 1 of generate_cave (map.py lines 105-110): full grid of CAVE_WALL,
then, on the interior `[1:-1, 1:-1]`, wall where
`clip(uniform + normal(0, 0.2)) < fill_percent`, else floor.
`np.random.random((h-2, w-2))` consumes (h-2)(w-2) NumPy floats row-major,
then `np.random.normal(0, 0.2, ...)` consumes the next (h-2)(w-2); the
normal draws are oracle values like the uniform ones. -/
def noise_fill (cfg : CaveConfig) (st : Streams) (c : Cnt) : TGrid × Cnt :=
  let iw := cfg.width - 2
  let ih := cfg.height - 2
  let base := c.nf
  (fun y x =>
    if 1 ≤ x ∧ x ≤ cfg.width - 2 ∧ 1 ≤ y ∧ y ≤ cfg.height - 2 then
      let i := (y - 1) * iw + (x - 1)
      if qclip (st.npFlt (base + i) + st.npFlt (base + ih * iw + i)) < cfg.fill_percent
      then CAVE_WALL else CAVE_FLOOR
    else CAVE_WALL,
   { c with nf := base + 2 * ih * iw })

/-- `Map.carve_random_room` (map.py lines 180-193): draw width and height in
3..8, a position with `randint(1, w - rw - 1)` / `randint(1, h - rh - 1)`
(ValueError when the range is empty), and set the rectangle to floor. -/
def carve_random_room (w h : Nat) (st : Streams) (c : Cnt) (g : TGrid) :
    Option (TGrid × Cnt) := do
  let (rw, c1) ← pyRandint st c 3 8
  let (rh, c2) ← pyRandint st c1 3 8
  let (x, c3) ← pyRandint st c2 1 ((w : Int) - rw - 1)
  let (y, c4) ← pyRandint st c3 1 ((h : Int) - rh - 1)
  let x0 := x.toNat
  let y0 := y.toNat
  some ((fun yy xx =>
    if y0 ≤ yy ∧ yy < y0 + rh.toNat ∧ x0 ≤ xx ∧ xx < x0 + rw.toNat
    then CAVE_FLOOR else g yy xx), c4)

/-- Step 2 of generate_cave (lines 118-120): `num_rooms = randint(8, 32)`
rooms are carved in sequence. -/
def carve_rooms (w h : Nat) (st : Streams) (c : Cnt) (g : TGrid) :
    Option (TGrid × Cnt) := do
  let (n, c1) ← pyRandint st c 8 32
  let rec go : Nat → TGrid → Cnt → Option (TGrid × Cnt)
    | 0, g2, c2 => some (g2, c2)
    | k + 1, g2, c2 => do
      let (g3, c3) ← carve_random_room w h st c2 g2
      go k g3 c3
  go n.toNat g c1

/-- The value of the boolean mask `map_data == CAVE_WALL` at a padded
position: out-of-grid positions carry `boundary='fill', fillvalue=1`, i.e.
count as wall.  `==` on tiles is object identity, so the comparison is
against the CAVE_WALL prototype id. -/
def wallMask (w h : Nat) (g : TGrid) (ix iy : Int) : Nat :=
  if 0 ≤ ix ∧ ix < (w : Int) ∧ 0 ≤ iy ∧ iy < (h : Int) then
    if (g iy.toNat ix.toNat).tid = CAVE_WALL.tid then 1 else 0
  else 1

/-- The smoothing kernel `[[1,1,1],[1,0,1],[1,1,1]]`. -/
def kernel3 : List (List Nat) := [[1, 1, 1], [1, 0, 1], [1, 1, 1]]

/-- `scipy.signal.convolve2d(map_data == CAVE_WALL, kernel, mode='same',
boundary='fill', fillvalue=1)` at cell (x, y).  The kernel is symmetric, so
the convolution (flipped kernel) equals the direct correlation written
here. -/
def wall_neighbors (w h : Nat) (g : TGrid) (x y : Nat) : Nat :=
  ((List.range 3).flatMap (fun i => (List.range 3).map (fun j =>
    (kernel3.getD i []).getD j 0 *
      wallMask w h g ((x : Int) + (j : Int) - 1) ((y : Int) + (i : Int) - 1)))).sum

/-- One smoothing iteration (map.py lines 131-132):
`map_data = np.where(wall_neighbors > 4, CAVE_WALL, CAVE_FLOOR)`.
The whole grid is rebuilt from the convolution of the old grid. -/
def smooth_step (w h : Nat) (g : TGrid) : TGrid :=
  fun y x => if 4 < wall_neighbors w h g x y then CAVE_WALL else CAVE_FLOOR

/-- Step 3 of generate_cave (lines 129-133): the smoothing loop runs exactly
`smoothing_iterations` times (there is no early-exit test in the loop). -/
def smooth_iter (w h : Nat) : Nat → TGrid → TGrid
  | 0, g => g
  | n + 1, g => smooth_iter w h n (smooth_step w h g)

/-- `Map.get_neighbors` (map.py lines 443-461): the four offsets
(-1,0), (1,0), (0,-1), (0,1) applied to (x, y), keeping in-bounds results,
in offset order. -/
def get_neighbors (w h : Nat) (x y : Nat) : List (Nat × Nat) :=
  ([((x : Int) - 1, (y : Int)), ((x : Int) + 1, (y : Int)),
    ((x : Int), (y : Int) - 1), ((x : Int), (y : Int) + 1)].filterMap
    (fun p =>
      if 0 ≤ p.1 ∧ p.1 < (w : Int) ∧ 0 ≤ p.2 ∧ p.2 < (h : Int) then
        some (p.1.toNat, p.2.toNat)
      else none))

/-- 4-neighbours of a (row, col) cell, used for the component analysis of
`scipy.ndimage.label` (default cross-shaped structuring element). -/
def rcNeighbors (w h : Nat) (rc : Nat × Nat) : List (Nat × Nat) :=
  (get_neighbors h w rc.1 rc.2).map (fun p => (p.1, p.2))

/-- Breadth-first traversal of one 4-connected component of `mask`,
collecting cells in dequeue order; cells are marked visited when enqueued.
Fuel `w * h + 1` bounds the pops (each cell is enqueued at most once). -/
def bfsComp (w h : Nat) (mask : Nat → Nat → Bool) :
    Nat → List (Nat × Nat) → List (Nat × Nat) → List (Nat × Nat)
  | 0, _, _ => []
  | _ + 1, [], _ => []
  | fuel + 1, rc :: queue, visited =>
    let fresh := (rcNeighbors w h rc).filter
      (fun n => mask n.1 n.2 && !(visited.contains n) && !(queue.contains n) && n != rc)
    rc :: bfsComp w h mask fuel (queue ++ fresh) (visited ++ fresh)

/-- The 4-connected components of `mask`, in row-major order of their first
cell — the labelling order of `scipy.ndimage.label` (label i+1 is
`comps.get i`). -/
def componentsRC (w h : Nat) (mask : Nat → Nat → Bool) : List (List (Nat × Nat)) :=
  ((cellsRC h w).foldl
    (fun (acc : List (List (Nat × Nat)) × List (Nat × Nat)) rc =>
      if mask rc.1 rc.2 && !(acc.2.contains rc) then
        let comp := bfsComp w h mask (w * h + 1) [rc] [rc]
        (acc.1 ++ [comp], acc.2 ++ comp)
      else acc)
    ([], [])).1

/-- `np.argwhere(labeled_regions == i)` for the component `comp`: the
(row, col) pairs of the component in row-major scan order. -/
def argwhereComp (w h : Nat) (comp : List (Nat × Nat)) : List (Nat × Nat) :=
  (cellsRC h w).filter (fun rc => comp.contains rc)

/-- First index of the maximum of a list (`np.argmax` tie-breaking). -/
def argmaxIdx (l : List Nat) : Nat :=
  (l.foldl
    (fun (acc : Nat × Nat × Nat) v =>
      if acc.2.2 < v then (acc.2.1, acc.2.1 + 1, v) else (acc.1, acc.2.1 + 1, acc.2.2))
    (0, 0, 0)).1

/-- `Map.connect_region_to_main` (map.py lines 196-214): pick one random
(row, col) pair from the small region and one from the main region; walk
`bresenham_line_procgen(start, end)` — which uses the first component of the
pairs as x — and for each yielded (x, y) with `0 < x < width` and
`0 < y < height` set `map_data[y, x] = CAVE_FLOOR`. -/
def connect_region_to_main (w h : Nat) (st : Streams) (c : Cnt) (g : TGrid)
    (regionRC mainRC : List (Nat × Nat)) : TGrid × Cnt :=
  let (a, c1) := npRandintLt st c regionRC.length
  let (b, c2) := npRandintLt st c1 mainRC.length
  let s := regionRC.getD a (0, 0)
  let e := mainRC.getD b (0, 0)
  let pts := bresenham_line_procgen ((s.1 : Int), (s.2 : Int)) ((e.1 : Int), (e.2 : Int))
  (pts.foldl
    (fun g2 p =>
      if 0 < p.1 ∧ p.1 < (w : Int) ∧ 0 < p.2 ∧ p.2 < (h : Int) then
        setCell g2 p.2.toNat p.1.toNat CAVE_FLOOR
      else g2) g, c2)

/-- Step 4 of generate_cave (lines 140-151): label the 4-connected floor
regions once, find the largest (`argmax(bincount(...)[1:]) + 1`, first on a
tie), and connect every other non-empty region to it.  The labelling is not
recomputed between carves, exactly as in the source. -/
def ensure_connected (w h : Nat) (st : Streams) (c : Cnt) (g : TGrid) : TGrid × Cnt :=
  let comps := componentsRC w h (fun r cc => (g r cc).tid = CAVE_FLOOR.tid)
  if 1 < comps.length then
    let largest := argmaxIdx (comps.map List.length)
    let mainRC := argwhereComp w h (comps.getD largest [])
    (List.range comps.length).foldl
      (fun (gc : TGrid × Cnt) i =>
        if i ≠ largest then
          let rc := argwhereComp w h (comps.getD i [])
          if rc.length ≠ 0 then connect_region_to_main w h st gc.2 gc.1 rc mainRC
          else gc
        else gc) (g, c)
  else (g, c)

/-- `Map.flood_fill_water` (map.py lines 512-529): draw a pool width and
height in 1..4, clip the centred rectangle to the grid, and turn every
still-unvisited CAVE_FLOOR cell of it into WATER, marking it visited. -/
def flood_fill_water (w h : Nat) (st : Streams) (x y : Nat) (c : Cnt)
    (g : TGrid) (vis : Nat → Nat → Bool) :
    TGrid × (Nat → Nat → Bool) × Cnt :=
  match pyRandint st c 1 4 with
  | none => (g, vis, c)
  | some (pw, c1) =>
    match pyRandint st c1 1 4 with
    | none => (g, vis, c1)
    | some (ph, c2) =>
      let minx := x - pw.toNat / 2
      let maxx := min (x + pw.toNat / 2) (w - 1)
      let miny := y - ph.toNat / 2
      let maxy := min (y + ph.toNat / 2) (h - 1)
      let cells := (List.range (maxy + 1 - miny)).flatMap (fun dy =>
        (List.range (maxx + 1 - minx)).map (fun dx => (miny + dy, minx + dx)))
      let gv := cells.foldl
        (fun (gv : TGrid × (Nat → Nat → Bool)) rc =>
          if (gv.1 rc.1 rc.2).tid = CAVE_FLOOR.tid ∧ gv.2 rc.1 rc.2 = false then
            (setCell gv.1 rc.1 rc.2 WATER,
             fun yy xx => if yy = rc.1 ∧ xx = rc.2 then true else gv.2 yy xx)
          else gv)
        (g, vis)
      (gv.1, gv.2, c2)

/-- Step 5 of generate_cave / `Map.add_water_pools` (lines 502-510): scan
cells row-major; on an unvisited CAVE_FLOOR cell draw `random.random()`
(short-circuit: no draw otherwise) and start a pool when it is below
`prob`. -/
def add_water_pools (w h : Nat) (st : Streams) (c : Cnt) (g : TGrid) (prob : ℚ) :
    TGrid × Cnt :=
  let r := (cellsRC h w).foldl
    (fun (acc : TGrid × (Nat → Nat → Bool) × Cnt) rc =>
      if (acc.1 rc.1 rc.2).tid = CAVE_FLOOR.tid ∧ acc.2.1 rc.1 rc.2 = false then
        let (q, c1) := pyRandom st acc.2.2
        if q < prob then flood_fill_water w h st rc.2 rc.1 c1 acc.1 acc.2.1
        else (acc.1, acc.2.1, c1)
      else acc)
    (g, fun _ _ => false, c)
  (r.1, r.2.2)

/-- The body of the moss while-loop (map.py lines 485-496).  The Python list
used as a stack pushes and pops at its end; the embedding keeps the stack
top at the list head, pushing neighbours one by one in `get_neighbors`
order, which yields the same pop order. -/
def mossLoop (w h : Nat) (clusterSize : Nat) :
    Nat → List (Nat × Nat) → Nat → TGrid → (Nat → Nat → Bool) →
    TGrid × (Nat → Nat → Bool)
  | 0, _, _, g, vis => (g, vis)
  | _ + 1, [], _, g, vis => (g, vis)
  | fuel + 1, (cx, cy) :: stack, count, g, vis =>
    if clusterSize ≤ count then (g, vis)
    else
      let (g1, count1) :=
        if (g cy cx).tid = CAVE_WALL.tid then (setCell g cy cx MOSSY_WALL, count + 1)
        else (g, count)
      let sv := (get_neighbors w h cx cy).foldl
        (fun (sv : List (Nat × Nat) × (Nat → Nat → Bool)) n =>
          if sv.2 n.2 n.1 = false ∧ (g1 n.2 n.1).tid = CAVE_WALL.tid then
            (n :: sv.1, fun yy xx => if yy = n.2 ∧ xx = n.1 then true else sv.2 yy xx)
          else sv)
        (stack, vis)
      mossLoop w h clusterSize fuel sv.1 count1 g1 sv.2

/-- `Map.flood_fill_moss` (lines 478-496): draw a cluster size in 2..12 and
run the stack loop from (x, y), which is marked visited up front. -/
def flood_fill_moss (w h : Nat) (st : Streams) (x y : Nat) (c : Cnt)
    (g : TGrid) (vis : Nat → Nat → Bool) :
    TGrid × (Nat → Nat → Bool) × Cnt :=
  match pyRandint st c 2 12 with
  | none => (g, vis, c)
  | some (cs, c1) =>
    let vis1 : Nat → Nat → Bool := fun yy xx => if yy = y ∧ xx = x then true else vis yy xx
    let gv := mossLoop w h cs.toNat (w * h + 1) [(x, y)] 0 g vis1
    (gv.1, gv.2, c1)

/-- `Map.add_moss_to_walls` (lines 467-476): scan cells row-major; on an
unvisited CAVE_WALL cell draw `random.random()` (short-circuit) and start a
cluster when it is below 0.05. -/
def add_moss_to_walls (w h : Nat) (st : Streams) (c : Cnt) (g : TGrid) :
    TGrid × Cnt :=
  let r := (cellsRC h w).foldl
    (fun (acc : TGrid × (Nat → Nat → Bool) × Cnt) rc =>
      if (acc.1 rc.1 rc.2).tid = CAVE_WALL.tid ∧ acc.2.1 rc.1 rc.2 = false then
        let (q, c1) := pyRandom st acc.2.2
        if q < mkRat 1 20 then flood_fill_moss w h st rc.2 rc.1 c1 acc.1 acc.2.1
        else (acc.1, acc.2.1, c1)
      else acc)
    (g, fun _ _ => false, c)
  (r.1, r.2.2)

/-! ## The map object, finalization and item scattering -/

/-- The `Map` object after generation: the tile grid (`map_data[y][x]`) and
the allocation counter for fresh tile identities (the next `copy.deepcopy`
produces the object with this id). -/
structure GenMap where
  width : Nat
  height : Nat
  data : Nat → Nat → TileInst
  alloc : Nat

/-- `map_data[y][x] = copy.deepcopy(map_data[y][x])`: the cell keeps its
fields but becomes a brand-new object. -/
def freshCopyAt (m : GenMap) (y x : Nat) : GenMap :=
  { m with
    data := setCell m.data y x { m.data y x with tid := m.alloc }
    alloc := m.alloc + 1 }

/-- Append an item to the tile at in-bounds cell (y, x)
(`Map.place_item_at` reached with in-range coordinates). -/
def appendItemAt (m : GenMap) (y x : Nat) (it : Nat) : GenMap :=
  { m with
    data := setCell m.data y x
      { m.data y x with items := (m.data y x).items ++ [it] } }

/-- generate_cave lines 164-169: every cell is deep-copied in row-major
order (each iteration allocates one fresh tile object and stores it back;
the `tile.x`/`tile.y` bookkeeping fields are not tracked). -/
def finalize_tiles (m : GenMap) : GenMap :=
  (cellsRC m.height m.width).foldl (fun mm rc => freshCopyAt mm rc.1 rc.2) m

/-- Item rarities of the RARITY_PROBABILITIES table, in its key order. -/
inductive Rarity where
  | common | uncommon | rare | epic | legendary | noSpawn
deriving DecidableEq, Repr

def rarityList : List Rarity :=
  [.common, .uncommon, .rare, .epic, .legendary, .noSpawn]

/-- `Map.random_select_rarity` (map.py lines 315-329): one weighted
`np.random.choice` over the six keys.  Every key has positive probability,
so the outcome is an oracle draw of an index below 6. -/
def random_select_rarity (st : Streams) (c : Cnt) : Rarity × Cnt :=
  let (i, c1) := npRandintLt st c 6
  (rarityList.getD i .noSpawn, c1)

/-- `Map.generate_item_by_rarity` (lines 331-351).  The registry of items of
a given rarity comes from the external Item Factory; `item_list.py` and the
YAML item data are not under src/, so the catalog is a parameter (spec
section 6: the core only requires a registry queryable by rarity).  A
`noSpawn` draw or an empty registry yields no item; otherwise a uniform
`np.random.choice` picks one entry and a fresh instance of it is created. -/
def generate_item_by_rarity (catalog : Rarity → List Nat) (st : Streams) (c : Cnt) :
    Option Nat × Cnt :=
  let (r, c1) := random_select_rarity st c
  if r = .noSpawn then (none, c1)
  else
    let entries := catalog r
    if entries.isEmpty then (none, c1)
    else
      let (j, c2) := npRandintLt st c1 entries.length
      (some (entries.getD j 0), c2)

/-- The walkable-tile comprehension of `generate_items_on_map` (map.py lines
265-268): (x, y) pairs, y outer, of the cells that are neither blocked nor
already holding items. -/
def walkable_tiles (m : GenMap) : List (Nat × Nat) :=
  (List.range m.height).flatMap (fun y =>
    (List.range m.width).filterMap (fun x =>
      if (m.data y x).blocked = false ∧ (m.data y x).items = [] then some (x, y)
      else none))

/-- `np.random.shuffle` as a selection shuffle: repeatedly draw an index
into the remaining list and extract that element.  Every permutation is
reachable and the length is preserved, which is the contract the caller
relies on. -/
def npShuffleAux (st : Streams) : Nat → Cnt → List (Nat × Nat) →
    List (Nat × Nat) × Cnt
  | 0, c, _ => ([], c)
  | fuel + 1, c, l =>
    match l with
    | [] => ([], c)
    | _ :: _ =>
      let (j, c1) := npRandintLt st c l.length
      let (rest, c2) := npShuffleAux st fuel c1 (l.eraseIdx j)
      (l.getD j (0, 0) :: rest, c2)

def npShuffle (st : Streams) (c : Cnt) (l : List (Nat × Nat)) :
    List (Nat × Nat) × Cnt :=
  npShuffleAux st l.length c l

/-- One batch of `generate_items_on_map` (map.py lines 292-303): for each
(x, y) of the slice, deep-copy the tile, skip it when it already holds an
item (`max_items_per_tile = 1`), otherwise draw an item and place it. -/
def scatter_batch (catalog : Rarity → List Nat) (st : Streams) :
    List (Nat × Nat) → GenMap → Cnt → Nat → GenMap × Cnt × Nat
  | [], m, c, placed => (m, c, placed)
  | (x, y) :: rest, m, c, placed =>
    let m1 := freshCopyAt m y x
    if 1 ≤ (m1.data y x).items.length then scatter_batch catalog st rest m1 c placed
    else
      match generate_item_by_rarity catalog st c with
      | (some it, c2) =>
        scatter_batch catalog st rest (appendItemAt m1 y x it) c2 (placed + 1)
      | (none, c2) => scatter_batch catalog st rest m1 c2 placed

/-- The batch loop `for i in range(0, items_to_generate, batch_size)` with
the early break once `placed_items >= items_to_generate` (lines 289-311).
The fuel `t + 1` dominates the iteration count since `i` grows by `b >= 1`
while `i < t`. -/
def scatter_loop (catalog : Rarity → List Nat) (st : Streams)
    (walk : List (Nat × Nat)) (t b : Nat) :
    Nat → Nat → GenMap → Cnt → Nat → GenMap × Cnt × Nat
  | 0, _, m, c, placed => (m, c, placed)
  | fuel + 1, i, m, c, placed =>
    if i < t then
      let r := scatter_batch catalog st ((walk.drop i).take b) m c placed
      if t ≤ r.2.2 then r
      else scatter_loop catalog st walk t b fuel (i + b) r.1 r.2.1 r.2.2
    else (m, c, placed)

/-- `Map.generate_items_on_map` (map.py lines 250-313): target count
`total_tiles // 750`, walkable tiles collected then shuffled, batch size
`max(1, target // 15)`, and the batch loop.  Returns the map, the number of
placed items and the stream counters. -/
def generate_items_on_map (catalog : Rarity → List Nat) (st : Streams)
    (m : GenMap) (c : Cnt) : GenMap × Nat × Cnt :=
  let total := m.width * m.height
  let t := total / 750
  let walk0 := walkable_tiles m
  if walk0.isEmpty then (m, 0, c)
  else
    let wc := npShuffle st c walk0
    let b := max 1 (t / 15)
    let r := scatter_loop catalog st wc.1 t b (t + 1) 0 m wc.2 0
    (r.1, r.2.2, r.2.1)

/-- The stages of `Map.generate_cave` after room carving: smoothing,
optional region connection, optional water pools then moss clusters, the
per-cell deep-copy pass (lines 164-169), and item scattering. -/
def generate_cave_post (catalog : Rarity → List Nat) (cfg : CaveConfig)
    (st : Streams) (g2 : TGrid) (c2 : Cnt) : GenMap :=
  let g3 := smooth_iter cfg.width cfg.height cfg.smoothing_iterations g2
  let r4 :=
    if cfg.connect_regions then ensure_connected cfg.width cfg.height st c2 g3
    else (g3, c2)
  let r5 :=
    if cfg.add_water then add_water_pools cfg.width cfg.height st r4.2 r4.1 (mkRat 1 50)
    else r4
  let r6 :=
    if cfg.add_moss then add_moss_to_walls cfg.width cfg.height st r5.2 r5.1
    else r5
  let m := finalize_tiles ⟨cfg.width, cfg.height, r6.1, 4⟩
  (generate_items_on_map catalog st m r6.2).1

/-- `Map.generate_cave` (map.py lines 86-178) at the tile level: border of
walls plus noise fill, room carving, then `generate_cave_post`.  `none`
models the ValueError a too-small grid raises in room carving.  Progress
reporting is the excluded UI layer. -/
def generate_cave (catalog : Rarity → List Nat) (cfg : CaveConfig)
    (st : Streams) : Option GenMap :=
  let r1 := noise_fill cfg st Cnt.zero
  match carve_rooms cfg.width cfg.height st r1.2 r1.1 with
  | none => none
  | some (g2, c2) => some (generate_cave_post catalog cfg st g2 c2)

/-! ## Grid accessors (map.py lines 62-81 and 671-686) -/

/-- `Map.get_tile_at_xy` (lines 671-680): bounds-checked, `None` out of
bounds. -/
def get_tile_at_xy (m : GenMap) (x y : Int) : Option TileInst :=
  if 0 ≤ x ∧ x < (m.width : Int) ∧ 0 ≤ y ∧ y < (m.height : Int) then
    some (m.data y.toNat x.toNat)
  else none

/-- `Map.can_move` (lines 682-686): bounds-checked, False out of bounds. -/
def can_move (m : GenMap) (x y : Int) : Bool :=
  if 0 ≤ x ∧ x < (m.width : Int) ∧ 0 ≤ y ∧ y < (m.height : Int) then
    !(m.data y.toNat x.toNat).blocked
  else false

/-- `Map.get_items_at` (lines 69-74): `map_data[y][x]` with raw numpy
indexing — negative indices wrap, others raise IndexError (`.error`).  The
`if tile:` test is always true (a Tile object is truthy), so the items of
the indexed cell are returned. -/
def get_items_at (m : GenMap) (x y : Int) : Except Unit (List Nat) :=
  match npWrap m.height y, npWrap m.width x with
  | some r, some c => .ok (m.data r c).items
  | _, _ => .error ()

/-- `Map.place_item_at` (lines 62-67): `map_data[y][x]` with raw numpy
indexing, then append to that tile. -/
def place_item_at (m : GenMap) (x y : Int) (it : Nat) : Except Unit GenMap :=
  match npWrap m.height y, npWrap m.width x with
  | some r, some c => .ok (appendItemAt m r c it)
  | _, _ => .error ()

/-- Heap-level mutation of the tile object referenced by cell (y, x): every
cell holding the same object (same `tid`) observes the change. -/
def mutate_tile (m : GenMap) (y x : Nat) (f : TileInst → TileInst) : GenMap :=
  { m with data := fun yy xx =>
      if (m.data yy xx).tid = (m.data y x).tid then f (m.data yy xx)
      else m.data yy xx }

/-- 4-connected flood-fill reachability between cells (x, y) over a
walkability mask, the notion of the repository's own `Map.flood_fill`
(BFS over `get_neighbors`). -/
def ff_reach (w h : Nat) (walk : Nat → Nat → Bool) (a b : Nat × Nat) : Bool :=
  (bfsComp w h (fun r c => walk c r) (w * h + 1) [(a.2, a.1)] [(a.2, a.1)]).contains
    (b.2, b.1)

/-! ## Concrete runs used by the claim theorems -/

/-- Oracle streams drawing 0 everywhere (every value is a legal draw). -/
def stA : Streams := ⟨fun _ => 0, fun _ => 0, fun _ => 0, fun _ => 0⟩

/-- Same Python streams as `stA` (same seed), but the NumPy float stream
differs at index 5, the uniform noise draw of interior cell (x=6, y=1). -/
def stB : Streams := ⟨fun _ => 0, fun _ => 0, fun i => if i = 5 then mkRat 9 10 else 0, fun _ => 0⟩

def emptyCatalog : Rarity → List Nat := fun _ => []

/-- 12 x 12, fill 0.6, no smoothing, no connection, no decoration. -/
def cfgC1 : CaveConfig := ⟨12, 12, mkRat 3 5, 0, false, false, false⟩

/-- 12 x 5 (non-square), fill 0.6, no smoothing, connect_regions on. -/
def cfgR1 : CaveConfig := ⟨12, 5, mkRat 3 5, 0, true, false, false⟩

def fallbackMap : GenMap := ⟨0, 0, fun _ _ => CAVE_WALL, 0⟩

/-- The map generated by `generate_cave` under `cfgR1` with streams `stB`:
rooms all carve the 3x3 block at (1,1)-(3,3), the noise leaves one extra
floor cell at (x=6, y=1), and the connection step then runs on the two
resulting floor regions. -/
def mR1 : GenMap := (generate_cave emptyCatalog cfgR1 stB).getD fallbackMap


/-- Concrete 5 x 5 grid: the centre cell is wall with exactly four wall
neighbours among its eight (its row above and its left neighbour). -/
def g4ce : TGrid := fun y x =>
  if (y, x) = (1, 1) ∨ (y, x) = (1, 2) ∨ (y, x) = (1, 3) ∨ (y, x) = (2, 1) ∨ (y, x) = (2, 2)
  then CAVE_WALL else CAVE_FLOOR

/-- The stable all-wall grid (every cell keeps more than 4 wall
neighbours, counting the boundary fill). -/
def gAllWall : TGrid := fun _ _ => CAVE_WALL

/-- The 8-neighbour wall count of the smoothing rule as the spec phrases
it: the 3 x 3 neighbourhood without its centre, out-of-grid neighbours
counting as wall (the convolution boundary fill). -/
def nbr_wall_count (w h : Nat) (g : TGrid) (x y : Nat) : Nat :=
  ((List.range 3).flatMap (fun i => (List.range 3).filterMap (fun j =>
    if i = 1 ∧ j = 1 then none
    else some (wallMask w h g ((x : Int) + (j : Int) - 1) ((y : Int) + (i : Int) - 1))))).sum

/-- All-floor tile grid (transparency 1.0 everywhere). -/
def allFloorTiles : Nat → Nat → TileInst := fun _ _ => CAVE_FLOOR

/-- All-floor grid with the one fully opaque tile (transparency 0.0)
directly right of the centre of a (2R+1)-square. -/
def oneOpaqueTiles (R : Nat) : Nat → Nat → TileInst :=
  fun y x => if y = R ∧ x = R + 1 then MOSSY_WALL else CAVE_FLOOR

/-- The visibility state of a freshly constructed Map (planes all False,
not revealed). -/
def vm0 : VisMap := ⟨fun _ _ => false, fun _ _ => false, false⟩

/-- 750 x 31 map (23250 tiles, so an item target of 31 and batch size 2)
whose walkable tiles are the first 32 cells of row 0. -/
def m9 : GenMap :=
  ⟨750, 31, fun y x => if y = 0 ∧ x < 32 then CAVE_FLOOR else CAVE_WALL, 1000⟩

/-- A catalog with a single common item, numbered 7. -/
def cat9 : Rarity → List Nat := fun r => if r = .common then [7] else []

/-- A 3 x 2 map of distinct floor tiles; the cell (x=2, y=0) holds item 5. -/
def m10 : GenMap :=
  ⟨3, 2, fun y x => ⟨.floor, y * 3 + x + 10, if y = 0 ∧ x = 2 then [5] else []⟩, 100⟩

/-- A small all-floor map for witnesses of the item-pass theorem. -/
def m9w : GenMap := ⟨3, 2, fun y x => ⟨.floor, y * 3 + x + 10, []⟩, 100⟩

/-- All in-bounds tile identities are below the allocation counter. -/
def TidsBounded (m : GenMap) : Prop :=
  ∀ y x, y < m.height → x < m.width → (m.data y x).tid < m.alloc

/-- No two in-bounds cells hold the same tile object. -/
def TidsInj (m : GenMap) : Prop :=
  ∀ y1 x1 y2 x2, y1 < m.height → x1 < m.width → y2 < m.height → x2 < m.width →
    (y1, x1) ≠ (y2, x2) → (m.data y1 x1).tid ≠ (m.data y2 x2).tid

/-- The loop error of the Bresenham walk after `px` x-steps and `py`
y-steps: each x-step adds dy, each y-step adds dx, starting from dx+dy. -/
def bErr (dx dy px py : Int) : Int := px * dy + py * dx + dx + dy

/-! # Theorems -/

/-- Any property preserved by every step of a fold holds of its result. -/
theorem foldl_preserve {α β : Type} (P : β → Prop) (f : β → α → β) :
    ∀ (l : List α), (∀ b a, a ∈ l → P b → P (f b a)) → ∀ b, P b → P (l.foldl f b)
  | [], _, _, hb => hb
  | a :: l, h, b, hb =>
    foldl_preserve P f l (fun b2 a2 ha2 => h b2 a2 (List.mem_cons_of_mem _ ha2)) _
      (h b a (List.mem_cons_self _ _) hb)

/-- A property established by the step at some list member and preserved by
every step holds of the fold result. -/
theorem foldl_establish {α β : Type} (P : β → Prop) (f : β → α → β) :
    ∀ (l : List α) (a : α), a ∈ l → (∀ b, P (f b a)) →
      (∀ b x, x ∈ l → P b → P (f b x)) → ∀ b, P (l.foldl f b)
  | [], a, ha, _, _, _ => absurd ha (List.not_mem_nil a)
  | x :: l, a, ha, hest, hpres, b => by
    rcases List.mem_cons.mp ha with h | h
    · subst h
      exact foldl_preserve P f l
        (fun b2 a2 ha2 => hpres b2 a2 (List.mem_cons_of_mem _ ha2)) _ (hest b)
    · exact foldl_establish P f l a h hest
        (fun b2 a2 ha2 => hpres b2 a2 (List.mem_cons_of_mem _ ha2)) _

/-- Marking a plane cell never clears another cell. -/
theorem planeSet_mono {h w : Nat} {p : Plane} {iy ix : Int} {y x : Nat}
    (hp : p y x = true) : planeSet h w p iy ix y x = true := by
  unfold planeSet
  rcases npWrap h iy with _ | r <;> rcases npWrap w ix with _ | c <;>
    first
      | exact hp
      | (dsimp only; split <;> simp [hp])

/-- `npWrap` on an in-range index. -/
theorem npWrap_inb {n : Nat} {i : Int} (h0 : 0 ≤ i) (h1 : i < (n : Int)) :
    npWrap n i = some i.toNat := by
  unfold npWrap
  rw [if_pos ⟨h0, h1⟩]

/-- Marking an in-bounds cell sets exactly that cell. -/
theorem planeSet_eq_self {h w : Nat} {p : Plane} {iy ix : Int}
    (hy0 : 0 ≤ iy) (hy1 : iy < (h : Int)) (hx0 : 0 ≤ ix) (hx1 : ix < (w : Int)) :
    planeSet h w p iy ix iy.toNat ix.toNat = true := by
  unfold planeSet
  rw [npWrap_inb hy0 hy1, npWrap_inb hx0 hx1]
  simp

/-- Marking an in-bounds cell leaves every other cell unchanged. -/
theorem planeSet_ne {h w : Nat} {p : Plane} {iy ix : Int} {y x : Nat}
    (hy0 : 0 ≤ iy) (hy1 : iy < (h : Int)) (hx0 : 0 ≤ ix) (hx1 : ix < (w : Int))
    (hne : ¬(y = iy.toNat ∧ x = ix.toNat)) :
    planeSet h w p iy ix y x = p y x := by
  unfold planeSet
  rw [npWrap_inb hy0 hy1, npWrap_inb hx0 hx1]
  simp only [if_neg hne]

/-- The ray walk never clears a visible mark. -/
theorem traceRay_mono_vis (tiles : Nat → Nat → TileInst) (w h : Nat) (tx ty : Int) :
    ∀ (l : List (Int × Int)) (acc : ℚ) (v e : Plane) {y x : Nat},
      v y x = true → (traceRay tiles w h tx ty l acc (v, e)).1 y x = true
  | [], _, _, _, _, _, hv => hv
  | (lx, ly) :: rest, acc, v, e, y, x, hv => by
    simp only [traceRay]
    split
    · exact hv
    · split
      · exact planeSet_mono hv
      · split
        · exact planeSet_mono hv
        · exact traceRay_mono_vis tiles w h tx ty rest _ _ _ (planeSet_mono hv)

/-- The ray walk never clears an explored mark. -/
theorem traceRay_mono_exp (tiles : Nat → Nat → TileInst) (w h : Nat) (tx ty : Int) :
    ∀ (l : List (Int × Int)) (acc : ℚ) (v e : Plane) {y x : Nat},
      e y x = true → (traceRay tiles w h tx ty l acc (v, e)).2 y x = true
  | [], _, _, _, _, _, he => he
  | (lx, ly) :: rest, acc, v, e, y, x, he => by
    simp only [traceRay]
    split
    · exact he
    · split
      · exact planeSet_mono he
      · split
        · exact planeSet_mono he
        · exact traceRay_mono_exp tiles w h tx ty rest _ _ _ (planeSet_mono he)

/-- One visibility update never clears an explored mark. -/
theorem update_mono_exp (tiles : Nat → Nat → TileInst) (w h : Nat) (s : VisMap)
    (px py : Int) (r : Nat) {y x : Nat} (he : s.exp y x = true) :
    (update_visibility_bresenham_soft tiles w h s px py r).exp y x = true := by
  unfold update_visibility_bresenham_soft
  split
  · exact he
  · refine foldl_preserve (fun ve : Plane × Plane => ve.2 y x = true) _ _ ?_ _ ?_
    · intro b a _ hb
      dsimp only
      split
      · rcases b with ⟨bv, be⟩
        exact traceRay_mono_exp tiles w h _ _ _ _ _ _ hb
      · exact hb
    · dsimp only
      split
      · exact planeSet_mono he
      · exact he

/-- A visibility update does not change the `is_revealed` flag. -/
theorem update_keeps_revealed (tiles : Nat → Nat → TileInst) (w h : Nat) (s : VisMap)
    (px py : Int) (r : Nat) :
    (update_visibility_bresenham_soft tiles w h s px py r).revealed = s.revealed := by
  unfold update_visibility_bresenham_soft
  split <;> rfl

/-- On a revealed map, a visibility update fills the visible plane. -/
theorem update_revealed_vis (tiles : Nat → Nat → TileInst) (w h : Nat) (s : VisMap)
    (px py : Int) (r : Nat) (hrev : s.revealed = true) (y x : Nat) :
    (update_visibility_bresenham_soft tiles w h s px py r).vis y x = true := by
  unfold update_visibility_bresenham_soft
  rw [if_pos hrev]

/-- `reveal_map` sets the revealed flag. -/
theorem reveal_map_revealed (w h : Nat) (s : VisMap) :
    (reveal_map w h s).revealed = true := rfl

/-- Cell membership in the row-major enumeration. -/
theorem mem_cellsRC {h w y x : Nat} (hy : y < h) (hx : x < w) :
    (y, x) ∈ cellsRC h w := by
  unfold cellsRC
  refine List.mem_flatMap.mpr ⟨y, List.mem_range.mpr hy, ?_⟩
  exact List.mem_map.mpr ⟨x, List.mem_range.mpr hx, rfl⟩

/-- `reveal_map` marks every in-bounds cell visible. -/
theorem reveal_map_vis (w h : Nat) (s : VisMap) {y x : Nat} (hy : y < h) (hx : x < w) :
    (reveal_map w h s).vis y x = true := by
  unfold reveal_map
  refine foldl_establish (fun ve : Plane × Plane => ve.1 y x = true) _ _ (y, x)
    (mem_cellsRC hy hx) ?_ ?_ _
  · intro b
    dsimp only
    have hset := @planeSet_eq_self h w b.1 (y : Int) (x : Int)
      (Int.natCast_nonneg y) (by exact_mod_cast hy)
      (Int.natCast_nonneg x) (by exact_mod_cast hx)
    rw [Int.toNat_natCast, Int.toNat_natCast] at hset
    exact hset
  · intro b c _ hb
    dsimp only
    exact planeSet_mono hb

/-- Claim C6.  Across any sequence of visibility updates, the explored flag
of every cell is monotonically non-decreasing: once `explored[y][x]` is
true, no later `update_visibility_bresenham_soft` (for any viewer position
or radius, revealed or not) ever sets it back to false. -/
theorem claim_C6_explored_monotone (tiles : Nat → Nat → TileInst) (w h : Nat)
    (s : VisMap) (us : List (Int × Int × Nat)) (y x : Nat)
    (he : s.exp y x = true) :
    (apply_updates tiles w h s us).exp y x = true := by
  unfold apply_updates
  refine foldl_preserve (fun s2 : VisMap => s2.exp y x = true) _ _ ?_ _ he
  intro s2 u _ h2
  exact update_mono_exp tiles w h s2 u.1 u.2.1 u.2.2 h2

/-- Witness for C6 at a concrete input: a 2 x 2 floor map whose (0,0) is
explored stays explored across two further updates. -/
theorem claim_C6_witness :
    ((⟨fun _ _ => false, fun yy xx => yy = 0 && xx = 0, false⟩ : VisMap).exp 0 0 = true) ∧
    (apply_updates allFloorTiles 2 2
      ⟨fun _ _ => false, fun yy xx => yy = 0 && xx = 0, false⟩
      [(1, 1, 1), (0, 1, 2)]).exp 0 0 = true := by
  refine ⟨by decide, ?_⟩
  exact claim_C6_explored_monotone allFloorTiles 2 2 _ _ 0 0 (by decide)

/-- Claim C7.  After `reveal_map` has been invoked, every subsequent
visibility update marks every in-bounds cell visible, for every viewer
position and radius. -/
theorem claim_C7_reveal_all (tiles : Nat → Nat → TileInst) (w h : Nat)
    (s : VisMap) (us : List (Int × Int × Nat)) (y x : Nat)
    (hy : y < h) (hx : x < w) :
    (apply_updates tiles w h (reveal_map w h s) us).vis y x = true := by
  unfold apply_updates
  have key : ∀ s2 : VisMap, s2.revealed = true → (∀ yy xx, yy < h → xx < w → s2.vis yy xx = true) →
      let s3 := us.foldl (fun s4 u => update_visibility_bresenham_soft tiles w h s4 u.1 u.2.1 u.2.2) s2
      s3.revealed = true ∧ (∀ yy xx, yy < h → xx < w → s3.vis yy xx = true) := by
    induction us with
    | nil => exact fun s2 h1 h2 => ⟨h1, h2⟩
    | cons u us ih =>
      intro s2 h1 h2
      refine ih _ ?_ ?_
      · rw [update_keeps_revealed]; exact h1
      · intro yy xx _ _
        exact update_revealed_vis tiles w h s2 u.1 u.2.1 u.2.2 h1 yy xx
  exact (key (reveal_map w h s) (reveal_map_revealed w h s)
    (fun yy xx hyy hxx => reveal_map_vis w h s hyy hxx)).2 y x hy hx

/-- Witness for C7 at a concrete input: after revealing a 3 x 3 map, an
update from viewer (1,1) with radius 1 leaves cell (2,2) visible. -/
theorem claim_C7_witness :
    (apply_updates allFloorTiles 3 3 (reveal_map 3 3 vm0) [(1, 1, 1)]).vis 2 2 = true :=
  claim_C7_reveal_all allFloorTiles 3 3 vm0 [(1, 1, 1)] 2 2 (by decide) (by decide)

/-- The row-major cell enumeration has no duplicates. -/
theorem cellsRC_nodup (h w : Nat) : (cellsRC h w).Nodup := by
  unfold cellsRC
  refine List.nodup_flatMap.mpr ⟨?_, ?_⟩
  · intro y _
    exact (List.nodup_range w).map (fun a b hab => (Prod.mk.injEq ..).mp hab |>.2)
  · refine (List.nodup_range h).imp ?_
    intro y1 y2 hne
    intro p h1 h2
    rcases List.mem_map.mp h1 with ⟨x1, _, rfl⟩
    rcases List.mem_map.mp h2 with ⟨x2, _, he⟩
    exact hne ((Prod.mk.injEq ..).mp he |>.1).symm

/-- The fields of a fresh-copy fold other than data/alloc are unchanged. -/
theorem ffold_dims (L : List (Nat × Nat)) :
    ∀ m : GenMap, (L.foldl (fun mm rc => freshCopyAt mm rc.1 rc.2) m).height = m.height ∧
      (L.foldl (fun mm rc => freshCopyAt mm rc.1 rc.2) m).width = m.width := by
  induction L with
  | nil => exact fun m => ⟨rfl, rfl⟩
  | cons a L ih => intro m; simpa using ih (freshCopyAt m a.1 a.2)

/-- The allocation counter never decreases across a fresh-copy fold. -/
theorem ffold_alloc_mono (L : List (Nat × Nat)) :
    ∀ m : GenMap, m.alloc ≤ (L.foldl (fun mm rc => freshCopyAt mm rc.1 rc.2) m).alloc := by
  induction L with
  | nil => exact fun m => le_refl _
  | cons a L ih =>
    intro m
    calc m.alloc ≤ m.alloc + 1 := Nat.le_succ _
    _ ≤ _ := ih (freshCopyAt m a.1 a.2)

/-- Cells not in the fold list keep their tile object. -/
theorem ffold_untouched (L : List (Nat × Nat)) :
    ∀ (m : GenMap) (y x : Nat), (y, x) ∉ L →
      (L.foldl (fun mm rc => freshCopyAt mm rc.1 rc.2) m).data y x = m.data y x := by
  induction L with
  | nil => exact fun m y x _ => rfl
  | cons a L ih =>
    intro m y x hmem
    have h1 : (y, x) ∉ L := fun h2 => hmem (List.mem_cons_of_mem _ h2)
    have h2 : (y, x) ≠ a := fun h3 => hmem (h3 ▸ List.mem_cons_self _ _)
    rw [List.foldl_cons, ih _ y x h1]
    show setCell m.data a.1 a.2 _ y x = m.data y x
    unfold setCell
    rw [if_neg]
    intro h3
    exact h2 (Prod.ext h3.1 h3.2)

/-- Cells in the fold list end with a tile object allocated during the
fold: its id is at least the starting counter and below the final one. -/
theorem ffold_member (L : List (Nat × Nat)) :
    ∀ (m : GenMap) (y x : Nat), (y, x) ∈ L →
      m.alloc ≤ ((L.foldl (fun mm rc => freshCopyAt mm rc.1 rc.2) m).data y x).tid ∧
      ((L.foldl (fun mm rc => freshCopyAt mm rc.1 rc.2) m).data y x).tid <
        (L.foldl (fun mm rc => freshCopyAt mm rc.1 rc.2) m).alloc := by
  induction L with
  | nil => intro m y x hmem; exact absurd hmem (List.not_mem_nil _)
  | cons a L ih =>
    intro m y x hmem
    by_cases h1 : (y, x) ∈ L
    · have := ih (freshCopyAt m a.1 a.2) y x h1
      exact ⟨le_trans (Nat.le_succ _) this.1, this.2⟩
    · have h2 : (y, x) = a := by
        rcases List.mem_cons.mp hmem with h | h
        · exact h
        · exact absurd h h1
      rw [List.foldl_cons, ffold_untouched L _ y x h1]
      have h3 : (freshCopyAt m a.1 a.2).data y x = { m.data a.1 a.2 with tid := m.alloc } := by
        show setCell m.data a.1 a.2 _ y x = _
        unfold setCell
        rw [if_pos ⟨congrArg Prod.fst h2, congrArg Prod.snd h2⟩]
      rw [h3]
      exact ⟨Nat.le_succ_of_le (le_refl m.alloc) |> fun _ => le_refl m.alloc,
        lt_of_lt_of_le (Nat.lt_succ_self _) (ffold_alloc_mono L (freshCopyAt m a.1 a.2))⟩

/-- Two distinct cells of a duplicate-free fold list end with distinct tile
objects. -/
theorem ffold_inj (L : List (Nat × Nat)) :
    ∀ (m : GenMap) (y1 x1 y2 x2 : Nat), L.Nodup → (y1, x1) ∈ L → (y2, x2) ∈ L →
      (y1, x1) ≠ (y2, x2) →
      ((L.foldl (fun mm rc => freshCopyAt mm rc.1 rc.2) m).data y1 x1).tid ≠
      ((L.foldl (fun mm rc => freshCopyAt mm rc.1 rc.2) m).data y2 x2).tid := by
  induction L with
  | nil => intro m y1 x1 y2 x2 _ hmem; exact absurd hmem (List.not_mem_nil _)
  | cons a L ih =>
    intro m y1 x1 y2 x2 hnd hm1 hm2 hne
    have hndL : L.Nodup := (List.nodup_cons.mp hnd).2
    have haL : a ∉ L := (List.nodup_cons.mp hnd).1
    by_cases h1 : (y1, x1) ∈ L <;> by_cases h2 : (y2, x2) ∈ L
    · exact ih (freshCopyAt m a.1 a.2) y1 x1 y2 x2 hndL h1 h2 hne
    · have ha2 : (y2, x2) = a := by
        rcases List.mem_cons.mp hm2 with h | h
        · exact h
        · exact absurd h h2
      have hb1 := ffold_member L (freshCopyAt m a.1 a.2) y1 x1 h1
      rw [List.foldl_cons]
      rw [ffold_untouched L (freshCopyAt m a.1 a.2) y2 x2 (ha2 ▸ haL)]
      have h3 : (freshCopyAt m a.1 a.2).data y2 x2 = { m.data a.1 a.2 with tid := m.alloc } := by
        show setCell m.data a.1 a.2 _ y2 x2 = _
        unfold setCell
        rw [if_pos ⟨congrArg Prod.fst ha2, congrArg Prod.snd ha2⟩]
      rw [h3]
      intro hcontra
      have hb := hb1.1
      rw [hcontra] at hb
      simp only [freshCopyAt] at hb
      omega
    · have ha1 : (y1, x1) = a := by
        rcases List.mem_cons.mp hm1 with h | h
        · exact h
        · exact absurd h h1
      have hb2 := ffold_member L (freshCopyAt m a.1 a.2) y2 x2 h2
      rw [List.foldl_cons]
      rw [ffold_untouched L (freshCopyAt m a.1 a.2) y1 x1 (ha1 ▸ haL)]
      have h3 : (freshCopyAt m a.1 a.2).data y1 x1 = { m.data a.1 a.2 with tid := m.alloc } := by
        show setCell m.data a.1 a.2 _ y1 x1 = _
        unfold setCell
        rw [if_pos ⟨congrArg Prod.fst ha1, congrArg Prod.snd ha1⟩]
      rw [h3]
      intro hcontra
      have hb := hb2.1
      rw [hcontra.symm] at hb
      simp only [freshCopyAt] at hb
      omega
    · have ha1 : (y1, x1) = a := by
        rcases List.mem_cons.mp hm1 with h | h
        · exact h
        · exact absurd h h1
      have ha2 : (y2, x2) = a := by
        rcases List.mem_cons.mp hm2 with h | h
        · exact h
        · exact absurd h h2
      exact absurd (ha1.trans ha2.symm) hne

/-- After the per-cell deep-copy pass, all in-bounds tile identities are
below the allocation counter. -/
theorem finalize_bounded (m : GenMap) : TidsBounded (finalize_tiles m) := by
  intro y x hy hx
  unfold finalize_tiles at hy hx ⊢
  have hdims := ffold_dims (cellsRC m.height m.width) m
  rw [hdims.1] at hy
  rw [hdims.2] at hx
  exact (ffold_member (cellsRC m.height m.width) m y x (mem_cellsRC hy hx)).2

/-- After the per-cell deep-copy pass, no two in-bounds cells share a tile
object. -/
theorem finalize_inj (m : GenMap) : TidsInj (finalize_tiles m) := by
  intro y1 x1 y2 x2 hy1 hx1 hy2 hx2 hne
  unfold finalize_tiles at hy1 hx1 hy2 hx2 ⊢
  have hdims := ffold_dims (cellsRC m.height m.width) m
  rw [hdims.1] at hy1 hy2
  rw [hdims.2] at hx1 hx2
  exact ffold_inj (cellsRC m.height m.width) m y1 x1 y2 x2
    (cellsRC_nodup m.height m.width) (mem_cellsRC hy1 hx1) (mem_cellsRC hy2 hx2) hne

/-- A fresh copy of any cell preserves boundedness and distinctness of the
tile objects. -/
theorem freshCopyAt_pres (m : GenMap) (y x : Nat)
    (hb : TidsBounded m) (hi : TidsInj m) :
    TidsBounded (freshCopyAt m y x) ∧ TidsInj (freshCopyAt m y x) := by
  constructor
  · intro y1 x1 hy1 hx1
    show (setCell m.data y x _ y1 x1).tid < m.alloc + 1
    unfold setCell
    split
    · exact Nat.lt_succ_self _
    · exact Nat.lt_succ_of_lt (hb y1 x1 hy1 hx1)
  · intro y1 x1 y2 x2 hy1 hx1 hy2 hx2 hne
    show (setCell m.data y x _ y1 x1).tid ≠ (setCell m.data y x _ y2 x2).tid
    unfold setCell
    by_cases h1 : y1 = y ∧ x1 = x <;> by_cases h2 : y2 = y ∧ x2 = x
    · exact absurd (Prod.ext (h1.1.trans h2.1.symm) (h1.2.trans h2.2.symm)) hne
    · rw [if_pos h1, if_neg h2]
      intro hc
      exact absurd (hc ▸ hb y2 x2 hy2 hx2) (lt_irrefl _)
    · rw [if_neg h1, if_pos h2]
      intro hc
      exact absurd (hc.symm ▸ hb y1 x1 hy1 hx1) (lt_irrefl _)
    · rw [if_neg h1, if_neg h2]
      exact hi y1 x1 y2 x2 hy1 hx1 hy2 hx2 hne

/-- Appending an item changes no tile identity: boundedness and
distinctness are preserved. -/
theorem appendItemAt_pres (m : GenMap) (y x : Nat) (it : Nat)
    (hb : TidsBounded m) (hi : TidsInj m) :
    TidsBounded (appendItemAt m y x it) ∧ TidsInj (appendItemAt m y x it) := by
  have htid : ∀ y1 x1, ((appendItemAt m y x it).data y1 x1).tid = (m.data y1 x1).tid := by
    intro y1 x1
    show (setCell m.data y x _ y1 x1).tid = _
    unfold setCell
    split
    · rcases (by assumption : y1 = y ∧ x1 = x) with ⟨h1, h2⟩
      rw [h1, h2]
    · rfl
  constructor
  · intro y1 x1 hy1 hx1
    rw [htid]
    exact hb y1 x1 hy1 hx1
  · intro y1 x1 y2 x2 hy1 hx1 hy2 hx2 hne
    rw [htid, htid]
    exact hi y1 x1 y2 x2 hy1 hx1 hy2 hx2 hne

/-- A scatter batch preserves boundedness and distinctness. -/
theorem scatter_batch_pres (catalog : Rarity → List Nat) (st : Streams) :
    ∀ (l : List (Nat × Nat)) (m : GenMap) (c : Cnt) (placed : Nat),
      TidsBounded m → TidsInj m →
      TidsBounded (scatter_batch catalog st l m c placed).1 ∧
      TidsInj (scatter_batch catalog st l m c placed).1 := by
  intro l
  induction l with
  | nil => exact fun m c placed hb hi => ⟨hb, hi⟩
  | cons a l ih =>
    intro m c placed hb hi
    rcases a with ⟨x, y⟩
    have hf := freshCopyAt_pres m y x hb hi
    show TidsBounded (scatter_batch catalog st ((x, y) :: l) m c placed).1 ∧ _
    simp only [scatter_batch]
    split
    · exact ih _ _ _ hf.1 hf.2
    · rcases hgen : generate_item_by_rarity catalog st c with ⟨io, c2⟩
      rcases io with _ | it
      · exact ih _ _ _ hf.1 hf.2
      · have ha := appendItemAt_pres (freshCopyAt m y x) y x it hf.1 hf.2
        exact ih _ _ _ ha.1 ha.2

/-- The scatter loop preserves boundedness and distinctness. -/
theorem scatter_loop_pres (catalog : Rarity → List Nat) (st : Streams)
    (walk : List (Nat × Nat)) (t b : Nat) :
    ∀ (fuel i : Nat) (m : GenMap) (c : Cnt) (placed : Nat),
      TidsBounded m → TidsInj m →
      TidsBounded (scatter_loop catalog st walk t b fuel i m c placed).1 ∧
      TidsInj (scatter_loop catalog st walk t b fuel i m c placed).1 := by
  intro fuel
  induction fuel with
  | zero => exact fun i m c placed hb hi => ⟨hb, hi⟩
  | succ fuel ih =>
    intro i m c placed hb hi
    simp only [scatter_loop]
    split
    · have hbp := scatter_batch_pres catalog st ((walk.drop i).take b) m c placed hb hi
      split
      · exact hbp
      · exact ih _ _ _ _ hbp.1 hbp.2
    · exact ⟨hb, hi⟩

/-- The item pass preserves boundedness and distinctness of tile objects. -/
theorem generate_items_pres (catalog : Rarity → List Nat) (st : Streams)
    (m : GenMap) (c : Cnt) (hb : TidsBounded m) (hi : TidsInj m) :
    TidsBounded (generate_items_on_map catalog st m c).1 ∧
    TidsInj (generate_items_on_map catalog st m c).1 := by
  simp only [generate_items_on_map]
  split
  · exact ⟨hb, hi⟩
  · exact scatter_loop_pres catalog st _ _ _ _ _ _ _ _ hb hi

/-- Claim C8.  When `generate_cave` returns a map, no two grid cells
reference the same tile object: distinct in-bounds cells hold tiles with
distinct identities, and consequently mutating the tile referenced by one
cell (a heap write through its object identity) leaves every other cell's
tile unchanged. -/
theorem claim_C8_no_shared_tiles (catalog : Rarity → List Nat) (cfg : CaveConfig)
    (st : Streams) (m : GenMap) (hm : generate_cave catalog cfg st = some m) :
    ∀ y1 x1 y2 x2, y1 < m.height → x1 < m.width → y2 < m.height → x2 < m.width →
      (y1, x1) ≠ (y2, x2) →
      (m.data y1 x1).tid ≠ (m.data y2 x2).tid ∧
      ∀ f : TileInst → TileInst, (mutate_tile m y1 x1 f).data y2 x2 = m.data y2 x2 := by
  have hinv : TidsBounded m ∧ TidsInj m := by
    simp only [generate_cave] at hm
    rcases hcr : carve_rooms cfg.width cfg.height st
        (noise_fill cfg st Cnt.zero).2 (noise_fill cfg st Cnt.zero).1 with _ | ⟨g2, c2⟩
    · rw [hcr] at hm
      exact absurd hm (by simp)
    · rw [hcr] at hm
      have hm2 : generate_cave_post catalog cfg st g2 c2 = m := by
        exact Option.some.inj hm
      rw [← hm2]
      unfold generate_cave_post
      exact generate_items_pres catalog st _ _
        (finalize_bounded _) (finalize_inj _)
  intro y1 x1 y2 x2 hy1 hx1 hy2 hx2 hne
  have hid := hinv.2 y1 x1 y2 x2 hy1 hx1 hy2 hx2 hne
  refine ⟨hid, ?_⟩
  intro f
  show (if (m.data y2 x2).tid = (m.data y1 x1).tid then _ else m.data y2 x2) = m.data y2 x2
  rw [if_neg (fun hc => hid hc.symm)]

/-- Witness for C8 at the concrete run `mR1`: the cells (0,0) and (0,1)
hold distinct tile objects, and mutating the tile of (0,0) leaves (0,1)
untouched. -/
theorem claim_C8_witness :
    (mR1.data 0 0).tid ≠ (mR1.data 0 1).tid ∧
    (mutate_tile mR1 0 0 (fun t => { t with items := [9] })).data 0 1 = mR1.data 0 1 := by
  have h := claim_C8_no_shared_tiles emptyCatalog cfgR1 stB mR1
    (by with_unfolding_all rfl) 0 0 0 1
    (by with_unfolding_all decide) (by with_unfolding_all decide)
    (by with_unfolding_all decide) (by with_unfolding_all decide) (by decide)
  exact ⟨h.1, h.2 _⟩

/-- The convolution count equals the plain 8-neighbour wall count (the
kernel entries are 1 off-centre and 0 at the centre). -/
theorem wall_neighbors_eq_nbr (w h : Nat) (g : TGrid) (x y : Nat) :
    wall_neighbors w h g x y = nbr_wall_count w h g x y := by
  unfold wall_neighbors nbr_wall_count kernel3
  simp [List.range_succ]

/-- Grids agreeing on all in-bounds cells give the same wall mask. -/
theorem wallMask_congr (w h : Nat) (g g2 : TGrid)
    (hag : ∀ y x, y < h → x < w → g y x = g2 y x) (ix iy : Int) :
    wallMask w h g ix iy = wallMask w h g2 ix iy := by
  unfold wallMask
  split
  · rename_i hin
    rw [hag iy.toNat ix.toNat (by omega) (by omega)]
  · rfl

/-- Grids agreeing on all in-bounds cells smooth to the same grid. -/
theorem smooth_step_congr (w h : Nat) (g g2 : TGrid)
    (hag : ∀ y x, y < h → x < w → g y x = g2 y x) (y x : Nat) :
    smooth_step w h g y x = smooth_step w h g2 y x := by
  unfold smooth_step
  have heq : wall_neighbors w h g x y = wall_neighbors w h g2 x y := by
    unfold wall_neighbors
    simp only [wallMask_congr w h g g2 hag]
  rw [heq]

/-- A grid on which one smoothing step changes no in-bounds cell is left
in-bounds unchanged by any number of further iterations. -/
theorem smooth_iter_stable (w h : Nat) :
    ∀ (n : Nat) (g : TGrid),
      (∀ y x, y < h → x < w → smooth_step w h g y x = g y x) →
      ∀ y x, y < h → x < w → smooth_iter w h n g y x = g y x := by
  intro n
  induction n with
  | zero => exact fun g _ y x _ _ => rfl
  | succ n ih =>
    intro g hstable y x hy hx
    show smooth_iter w h n (smooth_step w h g) y x = g y x
    have hag : ∀ y2 x2, y2 < h → x2 < w → smooth_step w h g y2 x2 = g y2 x2 := hstable
    have hstable2 : ∀ y2 x2, y2 < h → x2 < w →
        smooth_step w h (smooth_step w h g) y2 x2 = smooth_step w h g y2 x2 := by
      intro y2 x2 hy2 hx2
      rw [smooth_step_congr w h (smooth_step w h g) g hag y2 x2]
    rw [ih (smooth_step w h g) hstable2 y x hy hx, hag y x hy hx]

/-- Counterexample to claim C4: in the grid `g4ce`, the interior cell
(x=2, y=2) is a wall with exactly 4 wall neighbours among its 8, yet the
smoothing step turns it into floor instead of leaving it unchanged. -/
theorem claim_C4_counterexample :
    nbr_wall_count 5 5 g4ce 2 2 = 4 ∧ g4ce 2 2 = CAVE_WALL ∧
    smooth_step 5 5 g4ce 2 2 = CAVE_FLOOR ∧ CAVE_FLOOR ≠ CAVE_WALL := by
  refine ⟨by with_unfolding_all decide, by with_unfolding_all decide,
    by with_unfolding_all decide, by decide⟩

/-- Claim C4 as amended.  Each smoothing iteration rebuilds every cell from
the 3x3 convolution of the previous grid: a cell becomes Wall exactly when
strictly more than 4 of its 8 neighbours are walls (out-of-grid neighbours
counting as walls), and becomes Floor otherwise — including at a count of
exactly 4, where the source drops the cell to floor rather than leaving it
unchanged.  The loop runs all `smoothing_iterations` iterations with no
early stop; observationally this is harmless, since a grid one iteration
leaves (in-bounds) unchanged is unchanged by all further iterations. -/
theorem claim_C4_amended (w h : Nat) (g : TGrid) (y x : Nat) :
    (smooth_step w h g y x =
      (if 4 < nbr_wall_count w h g x y then CAVE_WALL else CAVE_FLOOR)) ∧
    ((∀ y2 x2, y2 < h → x2 < w → smooth_step w h g y2 x2 = g y2 x2) →
      ∀ n, ∀ y2 x2, y2 < h → x2 < w → smooth_iter w h n g y2 x2 = g y2 x2) := by
  constructor
  · unfold smooth_step
    rw [wall_neighbors_eq_nbr]
  · intro hstable n y2 x2 hy2 hx2
    exact smooth_iter_stable w h n g hstable y2 x2 hy2 hx2

/-- Witness for the amended C4 at a concrete input: the all-wall grid is
stable, so five iterations leave its centre a wall; and its centre cell
follows the neighbour-count rule. -/
theorem claim_C4_witness :
    (smooth_step 3 3 gAllWall 1 1 =
      (if 4 < nbr_wall_count 3 3 gAllWall 1 1 then CAVE_WALL else CAVE_FLOOR)) ∧
    smooth_iter 3 3 5 gAllWall 1 1 = gAllWall 1 1 := by
  have h := claim_C4_amended 3 3 gAllWall 1 1
  refine ⟨h.1, h.2 ?_ 5 1 1 (by decide) (by decide)⟩
  intro y2 x2 hy2 hx2
  interval_cases y2 <;> interval_cases x2 <;> with_unfolding_all decide

/-- Claim C1 fails on the code: `generate_cave` seeds only the Python
`random` module, while the noise fill draws from NumPy's never-seeded
global generator.  With the seed (hence both Python streams) and the whole
configuration fixed, two runs that see different NumPy states — exactly
what two successive in-process runs see — produce different tile-kind
grids: under `cfgC1` the cell (x=6, y=1) is Wall in one run and Floor in
the other. -/
theorem claim_C1_not_deterministic :
    (∀ i, stA.pyInt i = stB.pyInt i) ∧ (∀ i, stA.pyFlt i = stB.pyFlt i) ∧
    Option.map (fun m => (m.data 1 6).kind) (generate_cave emptyCatalog cfgC1 stA)
      = some .wall ∧
    Option.map (fun m => (m.data 1 6).kind) (generate_cave emptyCatalog cfgC1 stB)
      = some .floor := by
  set_option maxRecDepth 40000 in
  refine ⟨fun i => rfl, fun i => rfl, by with_unfolding_all decide,
    by with_unfolding_all decide⟩

/-- Claim C2 fails on the code: under `cfgR1` (connect_regions on), the
generated map `mR1` has walkable cells (x=6, y=1) and (x=1, y=1) in two
different 4-connected components — `connect_region_to_main` hands
`np.argwhere` (row, col) pairs to a Bresenham walker that reads them as
(x, y) and carves the transposed line under mismatched bounds checks, so
the regions are never joined. -/
theorem claim_C2_not_connected :
    cfgR1.connect_regions = true ∧
    generate_cave emptyCatalog cfgR1 stB = some mR1 ∧
    can_move mR1 6 1 = true ∧ can_move mR1 1 1 = true ∧
    ff_reach 12 5 (fun y x => !(mR1.data y x).blocked) (6, 1) (1, 1) = false := by
  set_option maxRecDepth 40000 in
  refine ⟨rfl, by with_unfolding_all rfl, by with_unfolding_all decide,
    by with_unfolding_all decide, by with_unfolding_all decide⟩

/-- Claim C3 fails on the code: in the same run `mR1` (width 12, height 5),
the border cell (x=1, y=height-1) ends up a walkable Floor tile.  The
carve loop writes `map_data[y, x]` for line points clipped by
`0 < x < width` and `0 < y < height`, which admits the last row and
column; with the swapped argwhere coordinates the carved line reaches
row height-1. -/
theorem claim_C3_border_broken :
    mR1.height = 5 ∧ mR1.width = 12 ∧
    generate_cave emptyCatalog cfgR1 stB = some mR1 ∧
    (mR1.data 4 1).kind = .floor ∧ (mR1.data 4 1).blocked = false := by
  set_option maxRecDepth 40000 in
  refine ⟨by with_unfolding_all rfl, by with_unfolding_all rfl,
    by with_unfolding_all rfl, by with_unfolding_all decide,
    by with_unfolding_all decide⟩

/-- Claim C10 fails on the code for the item accessors: `get_tile_at_xy`
and `can_move` are bounds-checked as claimed, but `get_items_at` and
`place_item_at` index `map_data` raw, so x = -1 silently wraps to column
width-1 (reading and writing an in-bounds cell) and an index past the end
raises IndexError. -/
theorem claim_C10_item_accessors_wrap :
    get_tile_at_xy m10 (-1) 0 = none ∧
    can_move m10 (-1) 0 = false ∧ can_move m10 3 0 = false ∧
    get_items_at m10 (-1) 0 = .ok [5] ∧
    (place_item_at m10 (-1) 0 9).map (fun mm => (mm.data 0 2).items) = .ok [5, 9] ∧
    get_items_at m10 0 5 = .error () := by
  refine ⟨by with_unfolding_all rfl, by with_unfolding_all decide,
    by with_unfolding_all decide, by with_unfolding_all rfl,
    by with_unfolding_all rfl, by with_unfolding_all rfl⟩

/-- A batch places at most one item per considered tile. -/
theorem scatter_batch_placed (catalog : Rarity → List Nat) (st : Streams) :
    ∀ (l : List (Nat × Nat)) (m : GenMap) (c : Cnt) (placed : Nat),
      (scatter_batch catalog st l m c placed).2.2 ≤ placed + l.length := by
  intro l
  induction l with
  | nil => exact fun m c placed => Nat.le_add_right _ _
  | cons a l ih =>
    intro m c placed
    rcases a with ⟨x, y⟩
    simp only [scatter_batch]
    split
    · exact le_trans (ih _ _ _) (by simp [Nat.add_le_add_iff_left])
    · rcases hgen : generate_item_by_rarity catalog st c with ⟨io, c2⟩
      rcases io with _ | it
      · exact le_trans (ih _ _ _) (by simp [Nat.add_le_add_iff_left])
      · have := ih (appendItemAt (freshCopyAt m y x) y x it) c2 (placed + 1)
        calc (scatter_batch catalog st l _ c2 (placed + 1)).2.2
            ≤ placed + 1 + l.length := this
        _ = placed + (l.length + 1) := by omega

/-- The step the batch counter takes when the loop index advances by one
batch: one batch worth of the remaining ceiling count. -/
theorem batch_ceil_step (t b i : Nat) (hb : 0 < b) (hi : i < t) :
    b * ((t - i + b - 1) / b) = b * ((t - (i + b) + b - 1) / b) + b := by
  have h1 : t - i + b - 1 = (t - i - 1) + b := by omega
  rw [h1, Nat.add_div_right _ hb]
  by_cases hc : t - i ≤ b
  · have h2 : t - (i + b) = 0 := by omega
    have h3 : (t - i - 1) / b = 0 := Nat.div_eq_of_lt (by omega)
    have h4 : (0 + b - 1) / b = 0 := Nat.div_eq_of_lt (by omega)
    rw [h2, h3, h4]
    ring
  · have h2 : t - (i + b) + b - 1 = t - i - 1 := by omega
    rw [h2]
    ring

/-- The batch loop places at most one item per covered slice position:
`b` times the ceiling of the remaining target over `b`. -/
theorem scatter_loop_placed (catalog : Rarity → List Nat) (st : Streams)
    (walk : List (Nat × Nat)) (t b : Nat) (hb : 0 < b) :
    ∀ (fuel i : Nat) (m : GenMap) (c : Cnt) (placed : Nat),
      (scatter_loop catalog st walk t b fuel i m c placed).2.2 ≤
        placed + b * ((t - i + b - 1) / b) := by
  intro fuel
  induction fuel with
  | zero => exact fun i m c placed => Nat.le_add_right _ _
  | succ fuel ih =>
    intro i m c placed
    simp only [scatter_loop]
    split
    · rename_i hi
      have hstep := batch_ceil_step t b i hb hi
      have hbatch := scatter_batch_placed catalog st ((walk.drop i).take b) m c placed
      have hlen : ((walk.drop i).take b).length ≤ b := by
        simp
      split
      · omega
      · have hrec := ih (i + b) (scatter_batch catalog st ((walk.drop i).take b) m c placed).1
          (scatter_batch catalog st ((walk.drop i).take b) m c placed).2.1
          (scatter_batch catalog st ((walk.drop i).take b) m c placed).2.2
        omega
    · exact Nat.le_add_right _ _

/-- Every tile the walkable comprehension collects is in bounds, not
blocked, and itemless. -/
theorem walkable_tiles_ok (m : GenMap) :
    ∀ p ∈ walkable_tiles m, p.1 < m.width ∧ p.2 < m.height ∧
      (m.data p.2 p.1).blocked = false ∧ (m.data p.2 p.1).items = [] := by
  intro p hp
  unfold walkable_tiles at hp
  rcases List.mem_flatMap.mp hp with ⟨y, hy, hrow⟩
  rcases List.mem_filterMap.mp hrow with ⟨x, hx, hsome⟩
  by_cases hcond : (m.data y x).blocked = false ∧ (m.data y x).items = []
  · rw [if_pos hcond] at hsome
    cases Option.some.inj hsome
    exact ⟨List.mem_range.mp hx, List.mem_range.mp hy, hcond.1, hcond.2⟩
  · rw [if_neg hcond] at hsome
    exact absurd hsome (by simp)

/-- The shuffle returns elements of its input. -/
theorem npShuffleAux_subset (st : Streams) :
    ∀ (fuel : Nat) (c : Cnt) (l : List (Nat × Nat)) (a : Nat × Nat),
      a ∈ (npShuffleAux st fuel c l).1 → a ∈ l := by
  intro fuel
  induction fuel with
  | zero => intro c l a ha; exact absurd ha (List.not_mem_nil _)
  | succ fuel ih =>
    intro c l a ha
    match l with
    | [] => exact absurd ha (List.not_mem_nil _)
    | p :: rest =>
      simp only [npShuffleAux] at ha
      rcases List.mem_cons.mp ha with h | h
      · have hlen : (npRandintLt st c (p :: rest).length).1 < (p :: rest).length :=
          Nat.mod_lt _ (by simp)
        rw [h, List.getD_eq_getElem (p :: rest) (0, 0) hlen]
        exact List.getElem_mem hlen
      · exact List.eraseIdx_subset _ _ (ih _ _ a h)

/-- A fresh copy changes no items list. -/
theorem freshCopyAt_items (m : GenMap) (y x yy xx : Nat) :
    ((freshCopyAt m y x).data yy xx).items = (m.data yy xx).items := by
  show (setCell m.data y x _ yy xx).items = _
  unfold setCell
  split
  · rcases (by assumption : yy = y ∧ xx = x) with ⟨h1, h2⟩
    rw [h1, h2]
  · rfl

/-- Appending an item touches exactly its cell, appending one element. -/
theorem appendItemAt_items (m : GenMap) (y x : Nat) (it : Nat) (yy xx : Nat) :
    ((appendItemAt m y x it).data yy xx).items =
      (if yy = y ∧ xx = x then (m.data y x).items ++ [it] else (m.data yy xx).items) := by
  show (setCell m.data y x _ yy xx).items = _
  unfold setCell
  split
  · rfl
  · rfl

/-- The per-cell evolution of items through a scatter batch: each cell
either keeps its items or was a walkable itemless cell (with respect to
the base map `m0`) and now holds exactly one item. -/
theorem scatter_batch_items (catalog : Rarity → List Nat) (st : Streams) (m0 : GenMap) :
    ∀ (l : List (Nat × Nat)) (m : GenMap) (c : Cnt) (placed : Nat),
      (∀ p ∈ l, (m0.data p.2 p.1).blocked = false ∧ (m0.data p.2 p.1).items = []) →
      (∀ y x, (m.data y x).items = (m0.data y x).items ∨
        ((m0.data y x).blocked = false ∧ (m0.data y x).items = [] ∧
          ∃ it, (m.data y x).items = [it])) →
      ∀ y x, ((scatter_batch catalog st l m c placed).1.data y x).items = (m0.data y x).items ∨
        ((m0.data y x).blocked = false ∧ (m0.data y x).items = [] ∧
          ∃ it, ((scatter_batch catalog st l m c placed).1.data y x).items = [it]) := by
  intro l
  induction l with
  | nil => exact fun m c placed _ hinv y x => hinv y x
  | cons a l ih =>
    intro m c placed hok hinv y x
    rcases a with ⟨ax, ay⟩
    have hok1 : ∀ p ∈ l, (m0.data p.2 p.1).blocked = false ∧ (m0.data p.2 p.1).items = [] :=
      fun p hp => hok p (List.mem_cons_of_mem _ hp)
    have hfresh : ∀ yy xx, ((freshCopyAt m ay ax).data yy xx).items = (m.data yy xx).items :=
      freshCopyAt_items m ay ax
    have hinv1 : ∀ yy xx, ((freshCopyAt m ay ax).data yy xx).items = (m0.data yy xx).items ∨
        ((m0.data yy xx).blocked = false ∧ (m0.data yy xx).items = [] ∧
          ∃ it, ((freshCopyAt m ay ax).data yy xx).items = [it]) := by
      intro yy xx
      rw [hfresh]
      exact hinv yy xx
    simp only [scatter_batch]
    split
    · exact ih _ _ _ hok1 hinv1 y x
    · rename_i hnotfull
      rcases hgen : generate_item_by_rarity catalog st c with ⟨io, c2⟩
      rcases io with _ | it
      · exact ih _ _ _ hok1 hinv1 y x
      · refine ih _ _ _ hok1 ?_ y x
        intro yy xx
        rw [appendItemAt_items]
        split
        · rename_i hyx
          rw [hyx.1, hyx.2]
          have hempty : ((freshCopyAt m ay ax).data ay ax).items = [] := by
            rcases List.eq_nil_or_concat ((freshCopyAt m ay ax).data ay ax).items with h | ⟨l2, a2, h⟩
            · exact h
            · exact absurd (by rw [h]; simp : 1 ≤ ((freshCopyAt m ay ax).data ay ax).items.length)
                hnotfull
          rw [hempty]
          have hbase := hok (ax, ay) (List.mem_cons_self _ _)
          exact Or.inr ⟨hbase.1, hbase.2, it, by simp⟩
        · exact hinv1 yy xx

/-- The per-cell evolution of items through the whole batch loop. -/
theorem scatter_loop_items (catalog : Rarity → List Nat) (st : Streams) (m0 : GenMap)
    (walk : List (Nat × Nat)) (t b : Nat)
    (hok : ∀ p ∈ walk, (m0.data p.2 p.1).blocked = false ∧ (m0.data p.2 p.1).items = []) :
    ∀ (fuel i : Nat) (m : GenMap) (c : Cnt) (placed : Nat),
      (∀ y x, (m.data y x).items = (m0.data y x).items ∨
        ((m0.data y x).blocked = false ∧ (m0.data y x).items = [] ∧
          ∃ it, (m.data y x).items = [it])) →
      ∀ y x, ((scatter_loop catalog st walk t b fuel i m c placed).1.data y x).items
          = (m0.data y x).items ∨
        ((m0.data y x).blocked = false ∧ (m0.data y x).items = [] ∧
          ∃ it, ((scatter_loop catalog st walk t b fuel i m c placed).1.data y x).items = [it]) := by
  intro fuel
  induction fuel with
  | zero => exact fun i m c placed hinv y x => hinv y x
  | succ fuel ih =>
    intro i m c placed hinv y x
    simp only [scatter_loop]
    have hbatchok : ∀ p ∈ (walk.drop i).take b,
        (m0.data p.2 p.1).blocked = false ∧ (m0.data p.2 p.1).items = [] :=
      fun p hp => hok p (List.drop_subset i walk (List.take_subset b _ hp))
    split
    · split
      · exact scatter_batch_items catalog st m0 _ m c placed hbatchok hinv y x
      · exact ih _ _ _ _ (scatter_batch_items catalog st m0 _ m c placed hbatchok hinv) y x
    · exact hinv y x

/-- Claim C9 as amended.  One scatter pass over a w x h grid places at most
ceil(t / b) * b <= t + b - 1 items, where t = floor(w * h / 750) is the
target and b = max(1, floor(t / 15)) the batch size (so at most t whenever
t < 30, but up to b - 1 over target otherwise, because the early break is
only checked between batches); it places items only on tiles that were
neither blocked nor already holding items; and no tile receives more than
one item from the pass. -/
theorem claim_C9_amended (catalog : Rarity → List Nat) (st : Streams)
    (m : GenMap) (c : Cnt) :
    ((generate_items_on_map catalog st m c).2.1 ≤
      m.width * m.height / 750 + max 1 (m.width * m.height / 750 / 15) - 1) ∧
    (∀ y x, y < m.height → x < m.width →
      ((generate_items_on_map catalog st m c).1.data y x).items = (m.data y x).items ∨
      ((m.data y x).blocked = false ∧ (m.data y x).items = [] ∧
        ∃ it, ((generate_items_on_map catalog st m c).1.data y x).items = [it])) := by
  constructor
  · simp only [generate_items_on_map]
    split
    · simp
    · dsimp only
      set t := m.width * m.height / 750 with ht
      set b := max 1 (t / 15) with hb
      have hbpos : 0 < b := le_max_left 1 _
      have hloop := scatter_loop_placed catalog st
        (npShuffle st c (walkable_tiles m)).1 t b hbpos (t + 1) 0
        m (npShuffle st c (walkable_tiles m)).2 0
      have hceil : b * ((t - 0 + b - 1) / b) ≤ t + b - 1 := by
        have := Nat.mul_div_le (t + b - 1) b
        have h0 : t - 0 + b - 1 = t + b - 1 := by omega
        rw [h0]
        exact this
      omega
  · intro y x _ _
    simp only [generate_items_on_map]
    split
    · exact Or.inl rfl
    · refine scatter_loop_items catalog st m _ _ _ ?_ _ _ _ _ _ ?_ y x
      · intro p hp
        have hp0 : p ∈ walkable_tiles m := npShuffleAux_subset st _ _ _ p hp
        have := walkable_tiles_ok m p hp0
        exact ⟨this.2.2.1, this.2.2.2⟩
      · exact fun yy xx => Or.inl rfl

/-- Witness for the amended C9 at a concrete input: on the 3 x 2 all-floor
map the pass places no item (target 0) and leaves cell (0,0) in one of the
two allowed states. -/
theorem claim_C9_amended_witness :
    ((generate_items_on_map cat9 stA m9w Cnt.zero).2.1 ≤
      m9w.width * m9w.height / 750 + max 1 (m9w.width * m9w.height / 750 / 15) - 1) ∧
    (((generate_items_on_map cat9 stA m9w Cnt.zero).1.data 0 0).items = (m9w.data 0 0).items ∨
      ((m9w.data 0 0).blocked = false ∧ (m9w.data 0 0).items = [] ∧
        ∃ it, ((generate_items_on_map cat9 stA m9w Cnt.zero).1.data 0 0).items = [it])) := by
  have h := claim_C9_amended cat9 stA m9w Cnt.zero
  exact ⟨h.1, h.2 0 0 (by decide) (by decide)⟩

/-- Counterexample to claim C9 as stated: on the 750 x 31 map `m9`
(23250 tiles, so a target of floor(23250/750) = 31 and batch size 2), a
pass in which every draw succeeds places 32 items — the batch loop covers
`range(0, 31, 2)` slices of width 2, i.e. 32 tiles, and the break fires
only after the last full batch. -/
theorem claim_C9_counterexample :
    m9.width * m9.height / 750 = 31 ∧
    (generate_items_on_map cat9 stA m9 Cnt.zero).2.1 = 32 := by
  constructor
  · with_unfolding_all decide
  · set_option maxRecDepth 1000000 in with_unfolding_all decide

theorem bdx_nonneg (x0 x1 : Int) : 0 ≤ bdx x0 x1 := Int.natCast_nonneg _

theorem bdy_nonpos (y0 y1 : Int) : bdy y0 y1 ≤ 0 :=
  neg_nonpos.mpr (Int.natCast_nonneg _)

theorem bsx_cases (x0 x1 : Int) : bsx x0 x1 = 1 ∨ bsx x0 x1 = -1 := by
  unfold bsx
  split
  · exact Or.inl rfl
  · exact Or.inr rfl

theorem bsy_cases (y0 y1 : Int) : bsy y0 y1 = 1 ∨ bsy y0 y1 = -1 := by
  unfold bsy
  split
  · exact Or.inl rfl
  · exact Or.inr rfl

theorem bend_x (x0 x1 : Int) : x0 + bsx x0 x1 * bdx x0 x1 = x1 := by
  unfold bsx bdx
  split <;> omega

theorem bend_y (y0 y1 : Int) : y0 + bsy y0 y1 * (-(bdy y0 y1)) = y1 := by
  unfold bsy bdy
  split <;> omega

/-- When all x-steps are taken but y-steps remain, the error test refuses a
further x-step. -/
theorem bres_fact_A (dx dy py : Int) (hdx : 0 ≤ dx) (hpy0 : 0 ≤ py)
    (hpy : py < -dy) : 2 * bErr dx dy dx py < dy := by
  unfold bErr
  nlinarith [mul_nonneg (by linarith : (0 : Int) ≤ 2 * dx)
    (by linarith : (0 : Int) ≤ -(dy + py + 1))]

/-- When all y-steps are taken but x-steps remain, the error test refuses a
further y-step. -/
theorem bres_fact_B (dx dy px : Int) (hdy : dy ≤ 0) (hpx0 : 0 ≤ px)
    (hpx : px < dx) : dx < 2 * bErr dx dy px (-dy) := by
  unfold bErr
  nlinarith [mul_nonneg (by linarith : (0 : Int) ≤ -2 * dy)
    (by linarith : (0 : Int) ≤ dx - px - 1)]

/-- One unfolding of the walk away from the end point. -/
theorem bresAux_step (x1 y1 dx dy sx sy : Int) (fuel : Nat) (x y err : Int)
    (hnt : ¬(x = x1 ∧ y = y1)) :
    bresAux x1 y1 dx dy sx sy (fuel + 1) x y err =
      (x, y) :: bresAux x1 y1 dx dy sx sy fuel
        (if dy ≤ 2 * err then x + sx else x)
        (if 2 * err ≤ dx then y + sy else y)
        ((if dy ≤ 2 * err then err + dy else err) + (if 2 * err ≤ dx then dx else 0)) := by
  simp only [bresAux, if_neg hnt]
  by_cases h1 : dy ≤ 2 * err <;> by_cases h2 : 2 * err ≤ dx <;> simp [h1, h2]

/-- The canonical successor of a non-final walk state: the two error tests
advance x and/or y without overshooting, strictly increasing px + py, and
the updated error is the error of the successor state. -/
theorem bres_next (x0 y0 dx dy sx sy px py : Int)
    (hdx : 0 ≤ dx) (hdy : dy ≤ 0)
    (hpx0 : 0 ≤ px) (hpx : px ≤ dx) (hpy0 : 0 ≤ py) (hpy : py ≤ -dy)
    (hnt : ¬(px = dx ∧ py = -dy)) :
    ∃ qx qy : Int, px ≤ qx ∧ qx ≤ dx ∧ qx ≤ px + 1 ∧ py ≤ qy ∧ qy ≤ -dy ∧ qy ≤ py + 1 ∧
      px + py < qx + qy ∧
      (if dy ≤ 2 * bErr dx dy px py then x0 + sx * px + sx else x0 + sx * px) = x0 + sx * qx ∧
      (if 2 * bErr dx dy px py ≤ dx then y0 + sy * py + sy else y0 + sy * py) = y0 + sy * qy ∧
      (if dy ≤ 2 * bErr dx dy px py then bErr dx dy px py + dy else bErr dx dy px py) +
        (if 2 * bErr dx dy px py ≤ dx then dx else 0) = bErr dx dy qx qy := by
  by_cases hc1 : dy ≤ 2 * bErr dx dy px py <;> by_cases hc2 : 2 * bErr dx dy px py ≤ dx
  · -- both advance
    have hpxlt : px < dx := by
      rcases lt_or_eq_of_le hpx with h | h
      · exact h
      · exfalso
        have hpylt : py < -dy := by
          rcases lt_or_eq_of_le hpy with h2 | h2
          · exact h2
          · exact absurd ⟨h, h2⟩ hnt
        rw [h] at hc1
        exact absurd hc1 (not_le.mpr (bres_fact_A dx dy py hdx hpy0 hpylt))
    have hpylt : py < -dy := by
      rcases lt_or_eq_of_le hpy with h2 | h2
      · exact h2
      · exfalso
        rw [h2] at hc2
        exact absurd hc2 (not_le.mpr (bres_fact_B dx dy px hdy hpx0 hpxlt))
    refine ⟨px + 1, py + 1, by omega, by omega, by omega, by omega, by omega, by omega,
      by omega, ?_, ?_, ?_⟩
    · rw [if_pos hc1]; ring
    · rw [if_pos hc2]; ring
    · rw [if_pos hc1, if_pos hc2]; unfold bErr; ring
  · -- x advances only
    have hpxlt : px < dx := by
      rcases lt_or_eq_of_le hpx with h | h
      · exact h
      · exfalso
        have hpylt : py < -dy := by
          rcases lt_or_eq_of_le hpy with h2 | h2
          · exact h2
          · exact absurd ⟨h, h2⟩ hnt
        rw [h] at hc1
        exact absurd hc1 (not_le.mpr (bres_fact_A dx dy py hdx hpy0 hpylt))
    refine ⟨px + 1, py, by omega, by omega, by omega, by omega, by omega, by omega,
      by omega, ?_, ?_, ?_⟩
    · rw [if_pos hc1]; ring
    · rw [if_neg hc2]
    · rw [if_pos hc1, if_neg hc2]; unfold bErr; ring
  · -- y advances only
    have hpylt : py < -dy := by
      rcases lt_or_eq_of_le hpy with h2 | h2
      · exact h2
      · exfalso
        have hpxlt : px < dx := by
          rcases lt_or_eq_of_le hpx with h | h
          · exact h
          · exact absurd ⟨h, h2⟩ hnt
        rw [h2] at hc2
        exact absurd hc2 (not_le.mpr (bres_fact_B dx dy px hdy hpx0 hpxlt))
    refine ⟨px, py + 1, by omega, by omega, by omega, by omega, by omega, by omega,
      by omega, ?_, ?_, ?_⟩
    · rw [if_neg hc1]
    · rw [if_pos hc2]; ring
    · rw [if_neg hc1, if_pos hc2]; unfold bErr; ring
  · exfalso
    push_neg at hc1 hc2
    linarith

/-- Every point the walk yields lies between the current state and the end
point in step coordinates. -/
theorem bresAux_shape (x0 y0 x1 y1 dx dy sx sy : Int)
    (hdx : 0 ≤ dx) (hdy : dy ≤ 0) (hsx : sx = 1 ∨ sx = -1) (hsy : sy = 1 ∨ sy = -1)
    (hex : x0 + sx * dx = x1) (hey : y0 + sy * (-dy) = y1) :
    ∀ (fuel : Nat) (px py : Int), 0 ≤ px → px ≤ dx → 0 ≤ py → py ≤ -dy →
      ∀ c ∈ bresAux x1 y1 dx dy sx sy fuel (x0 + sx * px) (y0 + sy * py) (bErr dx dy px py),
        ∃ p q : Int, px ≤ p ∧ p ≤ dx ∧ py ≤ q ∧ q ≤ -dy ∧ c = (x0 + sx * p, y0 + sy * q) := by
  intro fuel
  induction fuel with
  | zero =>
    intro px py _ _ _ _ c hc
    exact absurd hc (List.not_mem_nil _)
  | succ fuel ih =>
    intro px py hpx0 hpx hpy0 hpy c hc
    by_cases htgt : px = dx ∧ py = -dy
    · have hxy : x0 + sx * px = x1 ∧ y0 + sy * py = y1 := by
        rw [htgt.1, htgt.2]
        exact ⟨hex, hey⟩
      simp only [bresAux, if_pos hxy] at hc
      rcases List.mem_cons.mp hc with hhead | htail
      · exact ⟨px, py, le_refl _, hpx, le_refl _, hpy, hhead⟩
      · exact absurd htail (List.not_mem_nil _)
    · have hnt2 : ¬(x0 + sx * px = x1 ∧ y0 + sy * py = y1) := by
        intro hxy
        apply htgt
        constructor
        · have h1 : x0 + sx * px = x0 + sx * dx := hxy.1.trans hex.symm
          rcases hsx with h | h <;> rw [h] at h1 <;> omega
        · have h1 : y0 + sy * py = y0 + sy * (-dy) := hxy.2.trans hey.symm
          rcases hsy with h | h <;> rw [h] at h1 <;> omega
      rw [bresAux_step x1 y1 dx dy sx sy fuel _ _ _ hnt2] at hc
      rcases List.mem_cons.mp hc with hhead | htail
      · exact ⟨px, py, le_refl _, hpx, le_refl _, hpy, hhead⟩
      · obtain ⟨qx, qy, hq1, hq2, hq3, hq4, hq5, hq6, hq7, hqx, hqy, herr⟩ :=
          bres_next x0 y0 dx dy sx sy px py hdx hdy hpx0 hpx hpy0 hpy htgt
        rw [hqx, hqy, herr] at htail
        obtain ⟨p, q, hp1, hp2, hp3, hp4, hc2⟩ :=
          ih qx qy (by omega) hq2 (by omega) hq5 c htail
        exact ⟨p, q, by omega, hp2, by omega, hp4, hc2⟩

/-- With enough fuel the walk yields the end point. -/
theorem bresAux_reach (x0 y0 x1 y1 dx dy sx sy : Int)
    (hdx : 0 ≤ dx) (hdy : dy ≤ 0) (hsx : sx = 1 ∨ sx = -1) (hsy : sy = 1 ∨ sy = -1)
    (hex : x0 + sx * dx = x1) (hey : y0 + sy * (-dy) = y1) :
    ∀ (fuel : Nat) (px py : Int), 0 ≤ px → px ≤ dx → 0 ≤ py → py ≤ -dy →
      dx - px + (-dy - py) < (fuel : Int) →
      (x1, y1) ∈ bresAux x1 y1 dx dy sx sy fuel (x0 + sx * px) (y0 + sy * py)
        (bErr dx dy px py) := by
  intro fuel
  induction fuel with
  | zero =>
    intro px py hpx0 hpx hpy0 hpy hfuel
    exfalso
    simp only [Nat.cast_zero] at hfuel
    omega
  | succ fuel ih =>
    intro px py hpx0 hpx hpy0 hpy hfuel
    by_cases htgt : px = dx ∧ py = -dy
    · have hx : x0 + sx * px = x1 := by rw [htgt.1]; exact hex
      have hy : y0 + sy * py = y1 := by rw [htgt.2]; exact hey
      simp only [bresAux, hx, hy]
      exact List.mem_cons_self _ _
    · have hnt2 : ¬(x0 + sx * px = x1 ∧ y0 + sy * py = y1) := by
        intro hxy
        apply htgt
        constructor
        · have h1 : x0 + sx * px = x0 + sx * dx := hxy.1.trans hex.symm
          rcases hsx with h | h <;> rw [h] at h1 <;> omega
        · have h1 : y0 + sy * py = y0 + sy * (-dy) := hxy.2.trans hey.symm
          rcases hsy with h | h <;> rw [h] at h1 <;> omega
      rw [bresAux_step x1 y1 dx dy sx sy fuel _ _ _ hnt2]
      obtain ⟨qx, qy, hq1, hq2, hq3, hq4, hq5, hq6, hq7, hqx, hqy, herr⟩ :=
        bres_next x0 y0 dx dy sx sy px py hdx hdy hpx0 hpx hpy0 hpy htgt
      rw [hqx, hqy, herr]
      refine List.mem_cons_of_mem _ (ih qx qy (by omega) hq2 (by omega) hq5 ?_)
      have hcast : ((fuel + 1 : Nat) : Int) = (fuel : Int) + 1 := by push_cast; ring
      rw [hcast] at hfuel
      omega

/-- When the walk, started in its own first row with sx = 1, ever yields a
point of that row two or more x-steps ahead, the list begins with the two
row cells at the current and next x. -/
theorem bresAux_row (x0 y0 x1 y1 dx dy sx sy : Int)
    (hdx : 0 ≤ dx) (hdy : dy ≤ 0) (hsx1 : sx = 1) (hsy : sy = 1 ∨ sy = -1)
    (hex : x0 + sx * dx = x1) (hey : y0 + sy * (-dy) = y1) :
    ∀ (fuel : Nat) (px : Int), 0 ≤ px → px ≤ dx → ∀ k : Int, px + 2 ≤ k →
      (x0 + k, y0) ∈ bresAux x1 y1 dx dy sx sy fuel (x0 + sx * px) (y0 + sy * 0)
        (bErr dx dy px 0) →
      ∃ l2, bresAux x1 y1 dx dy sx sy fuel (x0 + sx * px) (y0 + sy * 0)
          (bErr dx dy px 0)
        = (x0 + px, y0 + sy * 0) :: (x0 + px + 1, y0 + sy * 0) :: l2 := by
  intro fuel
  induction fuel with
  | zero =>
    intro px _ _ k _ hm
    exact absurd hm (List.not_mem_nil _)
  | succ fuel ih =>
    intro px hpx0 hpx k hk hm
    have hys : y0 + sy * 0 = y0 := by ring
    by_cases htgt : px = dx ∧ (0 : Int) = -dy
    · have hxy : x0 + sx * px = x1 ∧ y0 + sy * 0 = y1 := by
        rw [htgt.1]
        refine ⟨hex, ?_⟩
        rw [← htgt.2] at hey
        exact hey
      simp only [bresAux, if_pos hxy] at hm
      rcases List.mem_cons.mp hm with hhead | htail
      · exfalso
        have : x0 + k = x0 + sx * px := congrArg Prod.fst hhead
        rw [hsx1] at this
        omega
      · exact absurd htail (List.not_mem_nil _)
    · have hnt2 : ¬(x0 + sx * px = x1 ∧ y0 + sy * 0 = y1) := by
        intro hxy
        apply htgt
        constructor
        · have h1 : x0 + sx * px = x0 + sx * dx := hxy.1.trans hex.symm
          rw [hsx1] at h1
          omega
        · have h1 : y0 + sy * 0 = y0 + sy * (-dy) := hxy.2.trans hey.symm
          rcases hsy with h | h <;> rw [h] at h1 <;> omega
      rw [bresAux_step x1 y1 dx dy sx sy fuel _ _ _ hnt2] at hm ⊢
      obtain ⟨qx, qy, hq1, hq2, hq3, hq4, hq5, hq6, hq7, hqx, hqy, herr⟩ :=
        bres_next x0 y0 dx dy sx sy px 0 hdx hdy hpx0 hpx (le_refl 0)
          (by omega) htgt
      rw [hqx, hqy, herr] at hm ⊢
      have hknothead : (x0 + k, y0) ≠ (x0 + sx * px, y0 + sy * 0) := by
        intro hcontra
        have : x0 + k = x0 + sx * px := congrArg Prod.fst hcontra
        rw [hsx1] at this
        omega
      have hmtail : (x0 + k, y0) ∈ bresAux x1 y1 dx dy sx sy fuel (x0 + sx * qx)
          (y0 + sy * qy) (bErr dx dy qx qy) := by
        rcases List.mem_cons.mp hm with hhead | htail
        · exact absurd hhead hknothead
        · exact htail
      rcases (by omega : qy = 0 ∨ qy = 1) with hqy0 | hqy1
      · -- still in the first row: the x-coordinate advanced by one
        have hqxv : qx = px + 1 := by omega
        rw [hqy0, hqxv] at hmtail
        rw [hqy0, hqxv]
        have e1 : x0 + sx * px = x0 + px := by rw [hsx1]; ring
        by_cases hk3 : px + 1 + 2 ≤ k
        · obtain ⟨l2, hl2⟩ := ih (px + 1) (by omega) (by omega) k hk3 hmtail
          rw [hl2, e1]
          have e2 : x0 + (px + 1) = x0 + px + 1 := by ring
          rw [e2]
          exact ⟨_, rfl⟩
        · -- k = px + 2: the next emission is the second row cell we need
          cases fuel with
          | zero => exact absurd hmtail (List.not_mem_nil _)
          | succ f2 =>
            simp only [bresAux]
            have e2 : x0 + sx * (px + 1) = x0 + px + 1 := by rw [hsx1]; ring
            rw [e1, e2]
            exact ⟨_, rfl⟩
      · -- the walk leaves the row for good: the row point cannot appear
        exfalso
        have hshape := bresAux_shape x0 y0 x1 y1 dx dy sx sy hdx hdy
          (Or.inl hsx1) hsy hex hey fuel qx qy (by omega) hq2 (by omega) hq5
          (x0 + k, y0) hmtail
        obtain ⟨p, q, hp1, hp2, hp3, hp4, hc2⟩ := hshape
        have hyq : y0 = y0 + sy * q := congrArg Prod.snd hc2
        rcases hsy with h | h <;> rw [h] at hyq <;> omega

/-- `bresenham_line` written as the walk started in state (0, 0). -/
theorem bresenham_line_eq_aux (x0 y0 x1 y1 : Int) :
    bresenham_line x0 y0 x1 y1 =
      bresAux x1 y1 (bdx x0 x1) (bdy y0 y1) (bsx x0 x1) (bsy y0 y1)
        ((x1 - x0).natAbs + (y1 - y0).natAbs + 1)
        (x0 + bsx x0 x1 * 0) (y0 + bsy y0 y1 * 0)
        (bErr (bdx x0 x1) (bdy y0 y1) 0 0) := by
  unfold bresenham_line bErr
  norm_num

/-- The generator always yields its end point within its fuel. -/
theorem bresenham_line_mem_target (x0 y0 x1 y1 : Int) :
    (x1, y1) ∈ bresenham_line x0 y0 x1 y1 := by
  rw [bresenham_line_eq_aux]
  refine bresAux_reach x0 y0 x1 y1 _ _ _ _ (bdx_nonneg x0 x1) (bdy_nonpos y0 y1)
    (bsx_cases x0 x1) (bsy_cases y0 y1) (bend_x x0 x1) (bend_y y0 y1) _ 0 0 le_rfl
    (bdx_nonneg x0 x1) le_rfl (neg_nonneg.mpr (bdy_nonpos y0 y1)) ?_
  unfold bdx bdy
  push_cast
  omega

/-- Every yielded point in step coordinates. -/
theorem bresenham_line_shape (x0 y0 x1 y1 : Int) :
    ∀ c ∈ bresenham_line x0 y0 x1 y1, ∃ p q : Int,
      0 ≤ p ∧ p ≤ bdx x0 x1 ∧ 0 ≤ q ∧ q ≤ -(bdy y0 y1) ∧
      c = (x0 + bsx x0 x1 * p, y0 + bsy y0 y1 * q) := by
  intro c hc
  rw [bresenham_line_eq_aux] at hc
  exact bresAux_shape x0 y0 x1 y1 _ _ _ _ (bdx_nonneg x0 x1) (bdy_nonpos y0 y1)
    (bsx_cases x0 x1) (bsy_cases y0 y1) (bend_x x0 x1) (bend_y y0 y1) _ 0 0 le_rfl
    (bdx_nonneg x0 x1) le_rfl (neg_nonneg.mpr (bdy_nonpos y0 y1)) c hc

/-- Every yielded point stays in the bounding box of the end points. -/
theorem bresenham_line_box (x0 y0 x1 y1 : Int) :
    ∀ c ∈ bresenham_line x0 y0 x1 y1,
      min x0 x1 ≤ c.1 ∧ c.1 ≤ max x0 x1 ∧ min y0 y1 ≤ c.2 ∧ c.2 ≤ max y0 y1 := by
  intro c hc
  obtain ⟨p, q, hp0, hpdx, hq0, hqd, hceq⟩ := bresenham_line_shape x0 y0 x1 y1 c hc
  have hx : c.1 = x0 + bsx x0 x1 * p := congrArg Prod.fst hceq
  have hy : c.2 = y0 + bsy y0 y1 * q := congrArg Prod.snd hceq
  have hex := bend_x x0 x1
  have hey := bend_y y0 y1
  constructor
  · rcases bsx_cases x0 x1 with h | h <;> rw [h] at hx hex <;> omega
  constructor
  · rcases bsx_cases x0 x1 with h | h <;> rw [h] at hx hex <;> omega
  constructor
  · rcases bsy_cases y0 y1 with h | h <;> rw [h] at hy hey <;> omega
  · rcases bsy_cases y0 y1 with h | h <;> rw [h] at hy hey <;> omega

/-- If the line through (x0, y0) yields a same-row point two or more cells
ahead in x, its first two points are (x0, y0) and (x0 + 1, y0): the walk
leaves its first row only once and never returns to it. -/
theorem bresenham_line_split (x0 y0 x1 y1 k : Int) (hk : 2 ≤ k)
    (hm : (x0 + k, y0) ∈ bresenham_line x0 y0 x1 y1) :
    ∃ l2, bresenham_line x0 y0 x1 y1 = (x0, y0) :: (x0 + 1, y0) :: l2 := by
  obtain ⟨p, q, hp0, hpdx, hq0, hqd, hceq⟩ :=
    bresenham_line_shape x0 y0 x1 y1 (x0 + k, y0) hm
  have hx : x0 + k = x0 + bsx x0 x1 * p := congrArg Prod.fst hceq
  have hy : y0 = y0 + bsy y0 y1 * q := congrArg Prod.snd hceq
  have hsx1 : bsx x0 x1 = 1 := by
    rcases bsx_cases x0 x1 with h | h
    · exact h
    · rw [h] at hx
      omega
  rw [bresenham_line_eq_aux] at hm ⊢
  obtain ⟨l2, hl2⟩ := bresAux_row x0 y0 x1 y1 _ _ _ _ (bdx_nonneg x0 x1)
    (bdy_nonpos y0 y1) hsx1 (bsy_cases y0 y1) (bend_x x0 x1) (bend_y y0 y1)
    _ 0 le_rfl (bdx_nonneg x0 x1) k (by omega) hm
  rw [hl2]
  have e1 : x0 + (0 : Int) = x0 := by ring
  have e2 : y0 + bsy y0 y1 * 0 = y0 := by ring
  rw [e1, e2]
  exact ⟨l2, rfl⟩

/-- Reading an in-bounds cell through numpy indexing. -/
theorem npTileAt_inb (tiles : Nat → Nat → TileInst) (h w : Nat) (iy ix : Int)
    (hy0 : 0 ≤ iy) (hy1 : iy < (h : Int)) (hx0 : 0 ≤ ix) (hx1 : ix < (w : Int)) :
    npTileAt tiles h w iy ix = tiles iy.toNat ix.toNat := by
  unfold npTileAt
  rw [npWrap_inb hy0 hy1, npWrap_inb hx0 hx1]

/-- On a ray of fully transparent in-bounds cells, the walk reaches and
marks its target. -/
theorem traceRay_target (tiles : Nat → Nat → TileInst) (w h : Nat) (tx ty : Int)
    (hty0 : 0 ≤ ty) (hty1 : ty < (h : Int)) (htx0 : 0 ≤ tx) (htx1 : tx < (w : Int)) :
    ∀ (l : List (Int × Int)) (v e : Plane),
      (tx, ty) ∈ l →
      (∀ c ∈ l, 0 ≤ c.1 ∧ c.1 < (w : Int) ∧ 0 ≤ c.2 ∧ c.2 < (h : Int)) →
      (∀ c ∈ l, (npTileAt tiles h w c.2 c.1).kind.transparency = 1) →
      (traceRay tiles w h tx ty l 1 (v, e)).1 ty.toNat tx.toNat = true := by
  intro l
  induction l with
  | nil =>
    intro v e hm _ _
    exact absurd hm (List.not_mem_nil _)
  | cons hd rest ih =>
    intro v e hm hinb htr
    rcases hd with ⟨lx, ly⟩
    simp only [traceRay]
    rw [if_neg (by norm_num : ¬((1 : ℚ) ≤ 0))]
    by_cases hh : lx = tx ∧ ly = ty
    · rw [if_pos hh]
      show planeSet h w v ly lx ty.toNat tx.toNat = true
      rw [hh.1, hh.2]
      exact planeSet_eq_self hty0 hty1 htx0 htx1
    · rw [if_neg hh]
      have htrh := htr (lx, ly) (List.mem_cons_self _ _)
      simp only at htrh
      rw [htrh]
      rw [if_neg (by norm_num : ¬((1 : ℚ) ≤ mkRat 1 10 ∨ (1 : ℚ) * 1 < mkRat 1 100))]
      have hone : (1 : ℚ) * 1 = 1 := one_mul 1
      rw [hone]
      refine ih _ _ ?_ (fun c hc => hinb c (List.mem_cons_of_mem _ hc))
        (fun c hc => htr c (List.mem_cons_of_mem _ hc))
      rcases List.mem_cons.mp hm with h1 | h1
      · exact absurd ⟨(congrArg Prod.fst h1).symm, (congrArg Prod.snd h1).symm⟩ hh
      · exact h1

/-- A cell not written by any ray cell keeps a false visible mark. -/
theorem traceRay_off (tiles : Nat → Nat → TileInst) (w h : Nat) (tx ty : Int) :
    ∀ (l : List (Int × Int)) (acc : ℚ) (v e : Plane) (yy xx : Nat),
      v yy xx = false →
      (∀ c ∈ l, 0 ≤ c.1 ∧ c.1 < (w : Int) ∧ 0 ≤ c.2 ∧ c.2 < (h : Int)) →
      (∀ c ∈ l, ¬(yy = c.2.toNat ∧ xx = c.1.toNat)) →
      (traceRay tiles w h tx ty l acc (v, e)).1 yy xx = false := by
  intro l
  induction l with
  | nil => exact fun acc v e yy xx hv _ _ => hv
  | cons hd rest ih =>
    intro acc v e yy xx hv hinb hne
    rcases hd with ⟨lx, ly⟩
    have hin := hinb (lx, ly) (List.mem_cons_self _ _)
    have hne0 := hne (lx, ly) (List.mem_cons_self _ _)
    have hv2 : planeSet h w v ly lx yy xx = false := by
      rw [planeSet_ne hin.2.2.1 hin.2.2.2 hin.1 hin.2.1 hne0]
      exact hv
    simp only [traceRay]
    split
    · exact hv
    · split
      · exact hv2
      · split
        · exact hv2
        · exact ih _ _ _ _ _ hv2 (fun c hc => hinb c (List.mem_cons_of_mem _ hc))
            (fun c hc => hne c (List.mem_cons_of_mem _ hc))

/-- When the second ray cell is near-opaque, the walk stops there: no cell
other than the first two is ever marked. -/
theorem traceRay_blocked (tiles : Nat → Nat → TileInst) (w h : Nat) (tx ty : Int)
    (p0 o : Int × Int) (l2 : List (Int × Int)) (acc : ℚ) (v e : Plane) (yy xx : Nat)
    (hv : v yy xx = false)
    (hp0in : 0 ≤ p0.1 ∧ p0.1 < (w : Int) ∧ 0 ≤ p0.2 ∧ p0.2 < (h : Int))
    (hoin : 0 ≤ o.1 ∧ o.1 < (w : Int) ∧ 0 ≤ o.2 ∧ o.2 < (h : Int))
    (hp0ne : ¬(yy = p0.2.toNat ∧ xx = p0.1.toNat))
    (hone : ¬(yy = o.2.toNat ∧ xx = o.1.toNat))
    (htro : (npTileAt tiles h w o.2 o.1).kind.transparency ≤ mkRat 1 10) :
    (traceRay tiles w h tx ty (p0 :: o :: l2) acc (v, e)).1 yy xx = false := by
  rcases p0 with ⟨px, py⟩
  rcases o with ⟨ox, oy⟩
  have hv2 : ∀ v2 : Plane, v2 yy xx = false → planeSet h w v2 py px yy xx = false := by
    intro v2 hvv
    rw [planeSet_ne hp0in.2.2.1 hp0in.2.2.2 hp0in.1 hp0in.2.1 hp0ne]
    exact hvv
  have hv3 : ∀ v2 : Plane, v2 yy xx = false → planeSet h w v2 oy ox yy xx = false := by
    intro v2 hvv
    rw [planeSet_ne hoin.2.2.1 hoin.2.2.2 hoin.1 hoin.2.1 hone]
    exact hvv
  simp only [traceRay]
  repeat' split
  all_goals
    first
      | exact hv
      | exact hv2 v hv
      | exact hv3 _ (hv2 v hv)
      | (rename_i hcon; exact absurd (Or.inl htro) hcon)

/-- An integer with square at most R squared lies in [-R, R]. -/
theorem sq_le_interval (a R : Int) (hR : 0 ≤ R) (h : a * a ≤ R * R) :
    -R ≤ a ∧ a ≤ R := by
  constructor <;> nlinarith

/-- Membership in the loop offset range. -/
theorem mem_intRange {r : Nat} {a : Int} (h1 : -(r : Int) ≤ a) (h2 : a ≤ (r : Int)) :
    a ∈ intRange r := by
  have he : a = ((((a + r).toNat : Nat) : Int)) - (r : Int) := by omega
  have hm : (a + r).toNat ∈ List.range (2 * r + 1) := List.mem_range.mpr (by omega)
  rw [he, intRange]
  exact List.mem_map_of_mem (fun i : Nat => (i : Int) - (r : Int)) hm

/-- Claim C5.  For a viewer at the centre of the all-Floor (transparency
1.0) square of radius R, one visibility update marks every cell at squared
distance at most R squared visible; and over the same square with the one
fully opaque (transparency 0.0) tile directly right of the viewer, no cell
strictly beyond that tile on the same ray is marked visible. -/
theorem claim_C5_soft_occlusion (R : Nat) :
    (∀ tx ty : Nat, tx < 2 * R + 1 → ty < 2 * R + 1 →
      ((tx : Int) - R) * ((tx : Int) - R) + ((ty : Int) - R) * ((ty : Int) - R) ≤
        (R : Int) * (R : Int) →
      (update_visibility_bresenham_soft allFloorTiles (2 * R + 1) (2 * R + 1) vm0
        (R : Int) (R : Int) R).vis ty tx = true) ∧
    (∀ k : Nat, 2 ≤ k → k ≤ R →
      (update_visibility_bresenham_soft (oneOpaqueTiles R) (2 * R + 1) (2 * R + 1) vm0
        (R : Int) (R : Int) R).vis R (R + k) = false) := by
  constructor
  · intro tx ty htx hty hdist
    simp only [update_visibility_bresenham_soft, vm0, Bool.false_eq_true, if_false]
    have hdx := sq_le_interval ((tx : Int) - R) R (Int.natCast_nonneg R)
      (by nlinarith [sq_nonneg ((ty : Int) - R)])
    have hdy := sq_le_interval ((ty : Int) - R) R (Int.natCast_nonneg R)
      (by nlinarith [sq_nonneg ((tx : Int) - R)])
    refine foldl_establish (fun ve : Plane × Plane => ve.1 ty tx = true) _ _
      ((ty : Int) - R, (tx : Int) - R) ?_ ?_ ?_ _
    · exact List.mem_flatMap.mpr ⟨(ty : Int) - R, mem_intRange hdy.1 hdy.2,
        List.mem_map.mpr ⟨(tx : Int) - R, mem_intRange hdx.1 hdx.2, rfl⟩⟩
    · intro b
      dsimp only
      have harg1 : (R : Int) + ((tx : Int) - R) = (tx : Int) := by ring
      have harg2 : (R : Int) + ((ty : Int) - R) = (ty : Int) := by ring
      rw [harg1, harg2]
      rw [if_pos ⟨hdist, by omega, by push_cast; omega, by omega, by push_cast; omega⟩]
      rcases b with ⟨bv, be⟩
      have hres := traceRay_target allFloorTiles (2 * R + 1) (2 * R + 1)
        (tx : Int) (ty : Int) (by omega) (by push_cast; omega) (by omega)
        (by push_cast; omega) (bresenham_line (R : Int) (R : Int) (tx : Int) (ty : Int))
        bv be (bresenham_line_mem_target _ _ _ _) ?_ ?_
      · rw [Int.toNat_natCast, Int.toNat_natCast] at hres
        exact hres
      · intro c hc
        have hbox := bresenham_line_box _ _ _ _ c hc
        constructor
        · omega
        constructor
        · push_cast
          push_cast at hbox
          omega
        constructor
        · omega
        · push_cast
          push_cast at hbox
          omega
      · intro c hc
        have hbox := bresenham_line_box _ _ _ _ c hc
        rw [npTileAt_inb _ _ _ _ _ (by omega) (by push_cast at hbox ⊢; omega)
          (by omega) (by push_cast at hbox ⊢; omega)]
        rfl
    · intro b d _ hb
      rcases b with ⟨bv, be⟩
      split
      · exact traceRay_mono_vis _ _ _ _ _ _ _ _ _ hb
      · exact hb
  · intro k hk2 hkR
    simp only [update_visibility_bresenham_soft, vm0, Bool.false_eq_true, if_false]
    refine foldl_preserve (fun ve : Plane × Plane => ve.1 R (R + k) = false) _ _ ?_ _ ?_
    · intro b d hd hb
      rcases b with ⟨bv, be⟩
      split
      · rename_i hguard
        by_cases hbc : ((R : Int) + (k : Int), (R : Int)) ∈
            bresenham_line (R : Int) (R : Int) ((R : Int) + d.2) ((R : Int) + d.1)
        · obtain ⟨l2, hl2⟩ := bresenham_line_split (R : Int) (R : Int)
            ((R : Int) + d.2) ((R : Int) + d.1) (k : Int) (by omega) hbc
          rw [hl2]
          refine traceRay_blocked _ _ _ _ _ _ _ _ _ _ _ _ _ hb
            ⟨by omega, by push_cast; omega, by omega, by push_cast; omega⟩
            ⟨by omega, by push_cast; omega, by omega, by push_cast; omega⟩
            (by intro hcontra; omega) (by intro hcontra; omega) ?_
          rw [npTileAt_inb _ _ _ _ _ (by omega) (by push_cast; omega)
            (by omega) (by push_cast; omega)]
          have e1 : ((R : Int)).toNat = R := Int.toNat_natCast R
          have e2 : ((R : Int) + 1).toNat = R + 1 := by omega
          rw [e1, e2]
          show (oneOpaqueTiles R R (R + 1)).kind.transparency ≤ mkRat 1 10
          unfold oneOpaqueTiles
          rw [if_pos ⟨rfl, rfl⟩]
          with_unfolding_all decide
        · refine traceRay_off _ _ _ _ _ _ _ _ _ _ _ hb ?_ ?_
          · intro c hc
            have hbox := bresenham_line_box _ _ _ _ c hc
            rcases hguard with ⟨hg1, hg2, hg3, hg4, hg5⟩
            refine ⟨by omega, ?_, by omega, ?_⟩
            · push_cast at hbox ⊢
              omega
            · push_cast at hbox ⊢
              omega
          · intro c hc hcontra
            apply hbc
            have hbox := bresenham_line_box _ _ _ _ c hc
            have hc1 : c.1 = (R : Int) + (k : Int) := by omega
            have hc2 : c.2 = (R : Int) := by omega
            have hcc : ((R : Int) + (k : Int), (R : Int)) = c :=
              Prod.ext hc1.symm hc2.symm
            rw [hcc]
            exact hc
      · exact hb
    · rw [if_pos ⟨by omega, by push_cast; omega, by omega, by push_cast; omega⟩]
      show planeSet (2 * R + 1) (2 * R + 1) (fun _ _ => false) (R : Int) (R : Int)
        R (R + k) = false
      rw [planeSet_ne (by omega) (by push_cast; omega) (by omega) (by push_cast; omega)
        (by intro hcontra; omega)]

/-- Witness for C5 at R = 3: the cell (x=0, y=3) at squared distance 9 is
visible in the all-floor square, and the cell (x=5, y=3) two steps beyond
the opaque tile is not. -/
theorem claim_C5_witness :
    (update_visibility_bresenham_soft allFloorTiles 7 7 vm0 3 3 3).vis 3 0 = true ∧
    (update_visibility_bresenham_soft (oneOpaqueTiles 3) 7 7 vm0 3 3 3).vis 3 5 = false := by
  constructor
  · have h := (claim_C5_soft_occlusion 3).1 0 3 (by decide) (by decide) (by decide)
    exact h
  · have h := (claim_C5_soft_occlusion 3).2 2 (by decide) (by decide)
    exact h
